import Mathlib

/-!
# Verification of the env-file ingestion pipeline (goloop/env)

This file shallowly embeds the core of the `env` Go package: the
quote/bracket-aware tokenizer `splitN`, the line classifier `isEmpty`,
the expression parser `parseExpression` (with `removeInlineComment`),
the variable expander (Go's `os.Expand` with `os.Getenv` mapping, as
called by `readParseStore`), and the ingestion pipeline
`readParseStore` itself.

Go strings are modelled as `List Char` of their bytes (all inputs of
interest are ASCII, where Go's byte-wise and rune-wise traversals
coincide).  The process environment is modelled as an association list
threaded explicitly.  The concurrent parse phase is modelled by a
"schedule": an arbitrary permutation of the numbered lines, from which
the keyed output collection is built, mirroring the worker pool whose
results land in a map keyed by line number.
-/

namespace GoEnv

/-- RE2 `\s` character class: `[\t\n\f\r ]`.  Used by the package's
regular expressions (`keyRgx`, `valueRgx`, `emptyLineRgx`). -/
def isSpaceRE2 (c : Char) : Bool :=
  c = ' ' ∨ c = '\t' ∨ c = '\n' ∨ c = '\x0c' ∨ c = '\r'

/-- Go `unicode.IsSpace`: the White_Space property
(`\t \n \v \f \r space NEL NBSP` plus the Unicode space code points).
Used by `strings.TrimSpace` and by `isEmpty`'s first-character test. -/
def isSpaceUnicode (c : Char) : Bool :=
  c = ' ' ∨ c = '\t' ∨ c = '\n' ∨ c = '\x0b' ∨ c = '\x0c' ∨ c = '\r' ∨
  c.val = 0x85 ∨ c.val = 0xa0 ∨ c.val = 0x1680 ∨
  (c.val ≥ 0x2000 ∧ c.val ≤ 0x200a) ∨
  c.val = 0x2028 ∨ c.val = 0x2029 ∨ c.val = 0x202f ∨ c.val = 0x205f ∨
  c.val = 0x3000

/-- Go regexp `\w` character class: `[0-9A-Za-z_]`. -/
def isWordChar (c : Char) : Bool :=
  c = '_' ∨ (c ≥ '0' ∧ c ≤ '9') ∨ (c ≥ 'a' ∧ c ≤ 'z') ∨ (c ≥ 'A' ∧ c ≤ 'Z')

/-- First character of a key: `[A-Za-z_]`. -/
def isKeyStart (c : Char) : Bool :=
  c = '_' ∨ (c ≥ 'a' ∧ c ≤ 'z') ∨ (c ≥ 'A' ∧ c ≤ 'Z')

/-- `strings.TrimSpace`: drop Unicode white space from both ends. -/
def trimSpace (xs : List Char) : List Char :=
  ((xs.dropWhile isSpaceUnicode).reverse.dropWhile isSpaceUnicode).reverse

/-! ## The environment store

`os.LookupEnv` / `os.Setenv` on the process environment, modelled as an
association list; `setEnv` overwrites in place or appends. -/

/-- The process environment. -/
abbrev Store := List (String × String)

/-- `os.LookupEnv`. -/
def lookupEnv : Store → String → Option String
  | [], _ => none
  | (k', v') :: rest, k => if k' = k then some v' else lookupEnv rest k

/-- `os.Setenv`: overwrite the key's binding, or append a new one. -/
def setEnv : Store → String → String → Store
  | [], k, v => [(k, v)]
  | (k', v') :: rest, k, v =>
    if k' = k then (k, v) :: rest else (k', v') :: setEnv rest k v

/-- `os.Getenv` as used by `os.ExpandEnv`: an absent key reads as `""`. -/
def getenvDef (s : Store) (k : String) : String := (lookupEnv s k).getD ""

theorem lookupEnv_setEnv_self (s : Store) (k v : String) :
    lookupEnv (setEnv s k v) k = some v := by
  induction s with
  | nil => simp [setEnv, lookupEnv]
  | cons hd tl ih =>
    by_cases h : hd.1 = k <;> simp [setEnv, lookupEnv, h, ih]

theorem lookupEnv_setEnv_ne (s : Store) (k k' v : String) (h : k ≠ k') :
    lookupEnv (setEnv s k v) k' = lookupEnv s k' := by
  induction s with
  | nil => simp [setEnv, lookupEnv, h]
  | cons hd tl ih =>
    by_cases h1 : hd.1 = k
    · subst h1
      simp [setEnv, lookupEnv, h]
    · simp [setEnv, lookupEnv, h1, ih]

/-! ## The tokenizer `splitN`

`splitN(str, sep, n)` splits `str` at occurrences of `sep`, ignoring
separators inside one tracked quote (`'…'`, `"…"`, `` `…` ``) or
bracket (`(…)`, `[…]`, `{…}`) group.  The Go loop keeps an index `i`,
a nesting `level`, the `host` (opening) rune of the tracked group, the
current piece `tmp`, and the last examined rune `char` (whose zero
value is the NUL rune).  The loop is modelled with explicit fuel: the
fuel chosen below exceeds the step count of every terminating run of
the Go loop, so a `none` result models non-termination (which the Go
code exhibits for an empty separator with unlimited splits). -/

/-- The runes of the Go string `"\"'`​"` (the quote group openers). -/
def quoteChars : List Char := ['"', '\'', '`']

/-- The runes of the Go string `"({["` (the bracket group openers). -/
def bracketChars : List Char := ['(', '\x7b', '[']

/-- The Go map `flips`; a missing key yields the zero rune, exactly as
a Go map read does. -/
def flipsMap (c : Char) : Char :=
  if c = '\x7d' then '\x7b'
  else if c = ']' then '['
  else if c = ')' then '('
  else Char.ofNat 0

/-- Loop state of `splitN`: pieces already emitted, current piece,
group nesting level, group host rune, last examined rune. -/
structure SplitState where
  acc : List (List Char)
  tmp : List Char
  level : Int
  host : Char
  lastChar : Char
  deriving Repr, DecidableEq

/-- After the loop: `if len(tmp) != 0 || string(char) == sep` the last
piece is appended. -/
def splitFinish (sep : List Char) (st : SplitState) : List (List Char) :=
  if st.tmp ≠ [] ∨ sep = [st.lastChar] then st.acc ++ [st.tmp] else st.acc

/-- The `splitN` scanning loop.  The three `contains` calls of the Go
source specialise to: membership of `char` in `quotes+brackets`;
`host = char` with `host` a quote; and `host = flips[char]` with `host`
a bracket (Go's `contains` demands all runes be found at one index). -/
def splitNLoop (sep : List Char) (n : Int) :
    Nat → List Char → SplitState → Option (List (List Char))
  | 0, _, _ => none
  | _ + 1, [], st => some (splitFinish sep st)
  | fuel + 1, c :: rest, st₀ =>
    let st := { st₀ with lastChar := c }
    if st.level = (0 : Int) ∧ (c ∈ quoteChars ∨ c ∈ bracketChars) then
      splitNLoop sep n fuel rest
        { st with host := c, level := st.level + 1, tmp := st.tmp ++ [c] }
    else if st.host = c ∧ c ∈ quoteChars then
      splitNLoop sep n fuel rest
        { st with level := 0, host := Char.ofNat 0, tmp := st.tmp ++ [c] }
    else if st.host = flipsMap c ∧ st.host ∈ bracketChars then
      if st.level - 1 ≤ (0 : Int) then
        splitNLoop sep n fuel rest
          { st with level := 0, host := Char.ofNat 0, tmp := st.tmp ++ [c] }
      else
        splitNLoop sep n fuel rest
          { st with level := st.level - 1, tmp := st.tmp ++ [c] }
    else if st.level = (0 : Int) ∧ sep.isPrefixOf (c :: rest) then
      let acc' := st.acc ++ [st.tmp]
      if n > 0 ∧ n = (acc'.length : Int) + 1 then
        some (splitFinish sep
          { st with acc := acc', tmp := (c :: rest).drop sep.length })
      else
        splitNLoop sep n fuel ((c :: rest).drop sep.length)
          { st with acc := acc', tmp := [] }
    else
      splitNLoop sep n fuel rest { st with tmp := st.tmp ++ [c] }

/-- Initial state of the `splitN` loop (Go zero values). -/
def splitInit : SplitState :=
  ⟨[], [], 0, Char.ofNat 0, Char.ofNat 0⟩

/-- `splitN`.  `n = 0` returns no pieces and `n = 1` the whole string,
before the loop runs.  `none` models a non-terminating run. -/
def splitN (str sep : String) (n : Int) : Option (List String) :=
  if n = 0 then some []
  else if n = 1 then some [str]
  else
    (splitNLoop sep.data n (str.data.length + n.toNat + 2) str.data
      splitInit).map (List.map String.mk)

/-! ## Line classifier `isEmpty` -/

/-- The regular expression `^(\s*)$|^(\s*[#].*)$`: all white space, or
white space followed by `#` and a remainder free of newlines (`.` does
not match a newline and `$` is end of text). -/
def emptyLineMatch (cs : List Char) : Bool :=
  cs.all isSpaceRE2 ∨
    (let r := cs.dropWhile isSpaceRE2
     r.head? = some '#' ∧ ¬ r.tail.contains '\n')

/-- `isEmpty`: a line holding separators or comments only.  The first
rune decides directly when it is `#` or not white space; otherwise the
regular expression `emptyLineRgx` is consulted. -/
def isEmpty (s : String) : Bool :=
  match s.data with
  | [] => true
  | c :: _ =>
    if c = '#' then true
    else if ¬ isSpaceUnicode c then false
    else emptyLineMatch s.data

/-! ## Expression parser -/

/-- Parse errors of `parseExpression` (the Go code formats them with
`fmt.Errorf`; the payload is the formatted subject). -/
inductive ParseErr where
  | missingName (exp : String)
  | incorrectValue (value : String)
  | missingEq (exp : String)
  deriving Repr, DecidableEq

/-- `strings.Split(s, string(sep))` for a one-rune separator: all the
pieces between occurrences of `sep`. -/
def goSplitAll (sep : Char) : List Char → List (List Char)
  | [] => [[]]
  | c :: rest =>
    if c = sep then [] :: goSplitAll sep rest
    else
      match goSplitAll sep rest with
      | [] => [[c]]
      | p :: ps => (c :: p) :: ps

/-- `strings.Replace(s, pat, rep, -1)`: replace every non-overlapping
occurrence of `pat`, scanning left to right.  The Go function inserts
`rep` at every rune boundary when `pat` is empty; `parseExpression`
only ever calls it with non-empty patterns, and for an empty pattern
this model returns the string unchanged. -/
def replaceAll (pat rep : List Char) : List Char → List Char
  | [] => []
  | c :: rest =>
    if h : pat.isPrefixOf (c :: rest) ∧ pat ≠ [] then
      rep ++ replaceAll pat rep ((c :: rest).drop pat.length)
    else
      c :: replaceAll pat rep rest
  termination_by s => s.length
  decreasing_by
    · have hp : 0 < pat.length := List.length_pos.mpr h.2
      simp only [List.length_drop, List.length_cons]
      omega
    · simp only [List.length_cons]
      omega

/-- `removeInlineComment`'s scanning loop.  `inside` is the quote
state, `prev` the previous byte (`none` at position 0), `acc` the
output builder.  Reaching `#` outside quotes returns the trimmed
prefix; the escape case emits `\` + quote and skips the quote. -/
def ricLoop (q : Char) : Bool → Option Char → List Char → List Char → List Char
  | _, _, acc, [] => acc
  | inside, prev, acc, c :: rest =>
    if c = q then
      let inside' :=
        if inside then
          if prev ≠ none ∧ prev ≠ some '\\' then false else true
        else true
      ricLoop q inside' (some c) (acc ++ [c]) rest
    else if c = '#' ∧ inside = false then trimSpace acc
    else if c = '\\' ∧ inside ∧ rest.head? = some q then
      ricLoop q inside (some q) (acc ++ ['\\', q]) (rest.drop 1)
    else
      ricLoop q inside (some c) (acc ++ [c]) rest
  termination_by _ _ _ s => s.length
  decreasing_by
    · simp only [List.length_cons]; omega
    · simp only [List.length_drop, List.length_cons]; omega
    · simp only [List.length_cons]; omega

/-- `removeInlineComment(str, q)`: strip an unquoted `#` comment,
aware of the quote rune `q`; a string without `#` passes through. -/
def removeInlineComment (s : List Char) (q : Char) : List Char :=
  if s.contains '#' then ricLoop q false none [] s else s

/-- The marker the Go code builds from 8 random bytes
(`"<::" + hex + "::>"`).  A fixed marker is used here; the behaviour
coincides with the Go code whenever the marker does not occur in the
value, which is the reason the Go code randomises it. -/
def quoteMarker : List Char := "<::a1b2c3d4e5f60718::>".data

/-- The value-processing tail of `parseExpression`, applied to the
trimmed value: quote detection, inline-comment handling for unquoted
values (split on `#`, then on a space, keep the first piece), and the
escape/marker/balance/strip steps for quoted values. -/
def parseValue (v : List Char) : Except ParseErr (List Char) :=
  let quote : Char :=
    if v.head? = some '\'' then '\''
    else if v.head? = some '"' then '"'
    else if v.head? = some '`' then '`'
    else Char.ofNat 0
  if quote = Char.ofNat 0 then
    if v.contains '#' then
      let chunks := goSplitAll '#' v
      let chunks2 := goSplitAll ' ' (chunks.headD [])
      .ok (trimSpace (chunks2.headD []))
    else .ok v
  else
    let v1 := replaceAll ['\\', quote] quoteMarker v
    let v2 := removeInlineComment v1 quote
    if v2.count quote % 2 ≠ 0 then .error (.incorrectValue (String.mk v2))
    else .ok (replaceAll quoteMarker [quote] ((v2.drop 1).dropLast))

/-- The greedy key run `[A-Za-z_][A-Za-z_0-9]*` followed by a literal
`=`.  Shrinking the greedy run can never recover a match (the rune
after a shorter run is a word rune, never `=`), so the regex matches
here exactly when the maximal run is non-empty, starts with a letter
or `_`, and is followed by `=`. -/
def keyThenEq (cs : List Char) : Option (List Char) :=
  if cs.takeWhile isWordChar ≠ [] ∧
      isKeyStart (cs.takeWhile isWordChar).head! ∧
      (cs.drop (cs.takeWhile isWordChar).length).head? = some '=' then
    some (cs.takeWhile isWordChar)
  else none

/-- `keyRgx.FindStringSubmatch`:
`^(?:\s*)?(?:export\s+)?(?P<key>[a-zA-Z_][a-zA-Z_0-9]*)=`.  Leading
white space is skipped; a literal `export` followed by white space is
consumed when present (when the branch is entered and the rest fails,
the fallback without `export` also fails, because the key run `export`
is then followed by white space, not `=`). -/
def keyRgxMatch (cs : List Char) : Option (List Char) :=
  let cs1 := cs.dropWhile isSpaceRE2
  if "export".data.isPrefixOf cs1 ∧
      ((cs1.drop 6).head?.map isSpaceRE2).getD false then
    keyThenEq ((cs1.drop 6).dropWhile isSpaceRE2)
  else keyThenEq cs1

/-- The regular expression `^=[^\s].*`: an `=` immediately followed by
a rune that is not white space. -/
def valueRgxMatch (value : List Char) : Bool :=
  match value with
  | '=' :: c :: _ => ¬ isSpaceRE2 c
  | _ => false

/-- `parseExpression`: break `[export] KEY=VALUE [# comment]` into the
key and the processed value. -/
def parseExpression (exp : String) : Except ParseErr (String × String) :=
  match keyRgxMatch exp.data with
  | none => .error (.missingName exp)
  | some key =>
    match exp.data.findIdx? (· = '=') with
    | none => .error (.missingEq exp)
    | some pos =>
      let value := exp.data.drop pos
      if valueRgxMatch value then
        match parseValue (trimSpace (value.drop 1)) with
        | .ok v => .ok (String.mk key, String.mk v)
        | .error e => .error e
      else .error (.incorrectValue (String.mk value))

/-! ## Variable expansion (`os.ExpandEnv`)

`readParseStore` calls `os.ExpandEnv`, i.e. `os.Expand` with the
`os.Getenv` mapping (an unset name expands to the empty string).  The
standard library routine is translated here. -/

/-- Go `isShellSpecialVar`. -/
def isShellSpecialVar (c : Char) : Bool :=
  c = '*' ∨ c = '#' ∨ c = '$' ∨ c = '@' ∨ c = '!' ∨ c = '?' ∨ c = '-' ∨
  (c ≥ '0' ∧ c ≤ '9')

/-- Go `isAlphaNum`: `[_0-9A-Za-z]` (same class as `isWordChar`). -/
def isAlphaNum (c : Char) : Bool := isWordChar c

/-- Go `getShellName`, applied to the bytes following a `$`: returns
the referenced name and the number of bytes consumed.  An empty name
with positive width is invalid syntax to be eaten; an empty name with
zero width leaves the `$` untouched. -/
def getShellName : List Char → List Char × Nat
  | [] => ([], 0)
  | c :: rest =>
    if c = '\x7b' then
      match rest with
      | c1 :: c2 :: _ =>
        if isShellSpecialVar c1 ∧ c2 = '\x7d' then ([c1], 3)
        else
          match rest.findIdx? (· = '\x7d') with
          | some 0 => ([], 2)
          | some k => (rest.take k, k + 2)
          | none => ([], 1)
      | _ =>
        match rest.findIdx? (· = '\x7d') with
        | some 0 => ([], 2)
        | some k => (rest.take k, k + 2)
        | none => ([], 1)
    else if isShellSpecialVar c then ([c], 1)
    else
      let run := (c :: rest).takeWhile isAlphaNum
      (run, run.length)

/-- The scanning loop of `os.Expand` with mapping `getenvDef store`.
Every step consumes at least the `$` or the current rune, so the loop
performs at most `length` steps; it is written with explicit fuel so
that it computes by kernel reduction, and `expandEnv` passes fuel
exceeding that bound, making the out-of-fuel branch unreachable. -/
def expandLoop (store : Store) : Nat → List Char → List Char
  | 0, s => s
  | _ + 1, [] => []
  | fuel + 1, '$' :: rest =>
    if rest = [] then ['$']
    else
      let p := getShellName rest
      if p.1 = [] ∧ p.2 > 0 then expandLoop store fuel (rest.drop p.2)
      else if p.1 = [] then '$' :: expandLoop store fuel (rest.drop p.2)
      else
        (getenvDef store (String.mk p.1)).data ++
          expandLoop store fuel (rest.drop p.2)
  | fuel + 1, c :: rest => c :: expandLoop store fuel rest

/-- `os.ExpandEnv` against an explicit store. -/
def expandEnv (store : Store) (s : String) : String :=
  String.mk (expandLoop store (s.data.length + 1) s.data)

/-! ## The ingestion pipeline `readParseStore`

The Go pipeline scans the file line by line, numbering lines from 0,
and hands each line to one of several workers.  Each worker skips
blank lines, parses the rest, and stores the parsed entry in a map
keyed by the line number; an unforced parse error cancels the call
before the apply phase.  The apply phase then walks the numbers
`0 … number-1` in order, single-threaded, and mutates the store.

A worker schedule is modelled as an arbitrary permutation of the
numbered lines: whatever the interleaving of workers, each line is
processed exactly once and its entry stored under its own number. -/

/-- A parsed entry (the `output` struct without the raw line). -/
structure Output where
  expanded : Bool
  value : String
  key : String
  deriving Repr, DecidableEq

/-- One worker step on a non-blank line: parse the expression and
compute `expanded` (`strings.Contains(value, "$")` in expand mode). -/
def parseLine (expand : Bool) (text : String) : Option (Except ParseErr Output) :=
  if isEmpty text then none
  else
    match parseExpression text with
    | .error e => some (.error e)
    | .ok kv => some (.ok ⟨expand && kv.2.data.contains '$', kv.2, kv.1⟩)

/-- Number the lines of a file starting at `n` (the scanner's counter). -/
def numberLines : Nat → List String → List (Nat × String)
  | _, [] => []
  | n, l :: ls => (n, l) :: numberLines (n + 1) ls

/-- The entries collected in the shared map, keyed by line number, for
a given processing schedule.  Blank lines and (in forced mode or not)
erroneous lines store nothing. -/
def goodOutputs (expand : Bool) (sched : List (Nat × String)) :
    List (Nat × Output) :=
  sched.filterMap fun nt =>
    match parseLine expand nt.2 with
    | some (.ok o) => some (nt.1, o)
    | _ => none

/-- The first parse error a schedule meets (`none` if every non-blank
line parses). -/
def firstError (expand : Bool) (sched : List (Nat × String)) : Option ParseErr :=
  (sched.filterMap fun nt =>
    match parseLine expand nt.2 with
    | some (.error e) => some e
    | _ => none).head?

/-- `outputs.Load(i)`: the entry stored under line number `i`. -/
def outAt (outs : List (Nat × Output)) (i : Nat) : Option Output :=
  (outs.find? fun p => p.1 = i).map (·.2)

/-- The value written for one entry: expanded against the current
store when both the policy and the entry say so. -/
def stepVal (expand : Bool) (s : Store) (o : Output) : String :=
  if expand && o.expanded then expandEnv s o.value else o.value

/-- The apply phase: `for i := 0; i < number; i++`, starting at `i`
with `count` iterations left.  A key already present is skipped unless
`update` is set. -/
def applyLoop (expand update : Bool) (outs : List (Nat × Output)) :
    Store → Nat → Nat → Store
  | s, _, 0 => s
  | s, i, count + 1 =>
    let s' :=
      match outAt outs i with
      | none => s
      | some o =>
        if update || (lookupEnv s o.key).isNone then
          setEnv s o.key (stepVal expand s o)
        else s
    applyLoop expand update outs s' (i + 1) count

/-- `readParseStore` for an explicit worker schedule `sched` of the
`number` numbered lines: an unforced parse error aborts before any
mutation; otherwise the apply phase runs in line-number order. -/
def readParseStoreSched (sched : List (Nat × String)) (number : Nat)
    (expand update forced : Bool) (s : Store) : Except ParseErr Store :=
  if forced then
    .ok (applyLoop expand update (goodOutputs expand sched) s 0 number)
  else
    match firstError expand sched with
    | some e => .error e
    | none =>
      .ok (applyLoop expand update (goodOutputs expand sched) s 0 number)

/-- `readParseStore` on the file's lines (the canonical schedule is
the scanner's own order; any worker interleaving yields a permutation
of it, see `readParseStoreSched`). -/
def readParseStore (file : List String) (expand update forced : Bool)
    (s : Store) : Except ParseErr Store :=
  readParseStoreSched (numberLines 0 file) file.length expand update forced s

/-- The environment after a call: an aborted call has not touched it
(the apply phase never ran). -/
def envAfter (r : Except ParseErr Store) (s : Store) : Store :=
  match r with
  | .ok s' => s'
  | .error _ => s

/-! ## Helper lemmas on the pipeline -/

theorem mem_numberLines {l : List String} {x : String} (hx : x ∈ l) (n : Nat) :
    ∃ m, (m, x) ∈ numberLines n l := by
  induction l generalizing n with
  | nil => cases hx
  | cons hd tl ih =>
    rcases List.mem_cons.mp hx with rfl | hx
    · exact ⟨n, List.mem_cons_self _ _⟩
    · obtain ⟨m, hm⟩ := ih hx (n + 1)
      exact ⟨m, List.mem_cons_of_mem _ hm⟩

/-- A line that is neither blank nor parseable forces `firstError` to
report something. -/
theorem firstError_isSome_of_bad {file : List String} {line : String}
    (expand : Bool) (hmem : line ∈ file) (hne : isEmpty line = false)
    (herr : ∃ e, parseExpression line = .error e) :
    ∃ e', firstError expand (numberLines 0 file) = some e' := by
  obtain ⟨m, hm⟩ := mem_numberLines hmem 0
  obtain ⟨e, he⟩ := herr
  rcases hcase : firstError expand (numberLines 0 file) with _ | e'
  · exfalso
    have hnil := List.head?_eq_none_iff.mp hcase
    have := List.filterMap_eq_nil.mp hnil (m, line) hm
    simp [parseLine, hne, he] at this
  · exact ⟨e', rfl⟩

/-! ## Helper lemmas on characters and scanning -/

theorem word_not_space {c : Char} (h : isWordChar c = true) :
    isSpaceRE2 c = false := by
  simp only [isWordChar, decide_eq_true_eq] at h
  simp only [isSpaceRE2, decide_eq_false_iff_not]
  rintro (rfl | rfl | rfl | rfl | rfl) <;> revert h <;> decide

theorem keyStart_word {c : Char} (h : isKeyStart c = true) :
    isWordChar c = true := by
  simp only [isKeyStart, decide_eq_true_eq] at h
  simp only [isWordChar, decide_eq_true_eq]
  tauto

theorem takeWhile_append_stop {p : Char → Bool} {xs t : List Char} {y : Char}
    (h : ∀ c ∈ xs, p c = true) (hy : p y = false) :
    (xs ++ y :: t).takeWhile p = xs := by
  induction xs with
  | nil => simp [List.takeWhile_cons, hy]
  | cons c cs ih =>
    have hc := h c (List.mem_cons_self _ _)
    simp [List.takeWhile_cons, hc, ih fun d hd => h d (List.mem_cons_of_mem _ hd)]

theorem findIdx_append_eq {xs t : List Char}
    (h : ∀ c ∈ xs, isWordChar c = true) :
    (xs ++ '=' :: t).findIdx? (· = '=') = some xs.length := by
  induction xs with
  | nil => simp [List.findIdx?_cons]
  | cons c cs ih =>
    have hc : ¬ (c = '=') := by
      intro hc
      have := h c (List.mem_cons_self _ _)
      rw [hc] at this
      exact absurd this (by decide)
    simp [List.findIdx?_cons, hc,
      ih fun d hd => h d (List.mem_cons_of_mem _ hd)]

theorem goSplitAll_ne_nil (sep : Char) (xs : List Char) :
    goSplitAll sep xs ≠ [] := by
  cases xs with
  | nil => simp [goSplitAll]
  | cons c rest =>
    by_cases hc : c = sep
    · simp [goSplitAll, hc]
    · simp only [goSplitAll, if_neg hc]
      cases goSplitAll sep rest <;> simp

theorem goSplitAll_head (sep : Char) (xs : List Char) :
    (goSplitAll sep xs).headD [] = xs.takeWhile (fun c => ¬ c = sep) := by
  induction xs with
  | nil => rfl
  | cons c rest ih =>
    by_cases hc : c = sep
    · simp [goSplitAll, hc, List.takeWhile_cons]
    · simp only [goSplitAll, if_neg hc, List.takeWhile_cons]
      cases hrec : goSplitAll sep rest with
      | nil => exact absurd hrec (goSplitAll_ne_nil sep rest)
      | cons p ps =>
        rw [hrec] at ih
        simp only [List.headD_cons] at ih
        simp [hc, ih]

theorem takeWhile_fused (p q : Char → Bool) (xs : List Char) :
    (xs.takeWhile p).takeWhile q = xs.takeWhile (fun c => p c && q c) := by
  induction xs with
  | nil => rfl
  | cons c rest ih =>
    by_cases hp : p c
    · by_cases hq : q c <;> simp [List.takeWhile_cons, hp, hq, ih]
    · simp [List.takeWhile_cons, hp]

/-! ## Claim theorems -/

/-- C1. For the file `KEY_0=a`, `KEY_1=${KEY_0}b`, `KEY_0=c` with
`expand = true`, `update = true` and the keys initially absent, the
call succeeds with `KEY_0 = "c"` and `KEY_1 = "ab"`: the expansion of
`KEY_1` sees `KEY_0` as it stands after the earlier line, and the
later redefinition of `KEY_0` does not retroactively change it. -/
theorem C1_expansion_ordering (s : Store) (forced : Bool)
    (h0 : lookupEnv s "KEY_0" = none) (h1 : lookupEnv s "KEY_1" = none) :
    ∃ s', readParseStore ["KEY_0=a", "KEY_1=${KEY_0}b", "KEY_0=c"]
        true true forced s = .ok s' ∧
      lookupEnv s' "KEY_0" = some "c" ∧ lookupEnv s' "KEY_1" = some "ab" := by
  have hget : getenvDef (setEnv s "KEY_0" "a") "KEY_0" = "a" := by
    simp [getenvDef, lookupEnv_setEnv_self]
  have hred : readParseStore ["KEY_0=a", "KEY_1=${KEY_0}b", "KEY_0=c"]
      true true forced s
      = .ok (setEnv (setEnv (setEnv s "KEY_0" "a") "KEY_1"
          (String.mk ((getenvDef (setEnv s "KEY_0" "a") "KEY_0").data ++ ['b'])))
          "KEY_0" "c") := by
    cases forced <;> rfl
  rw [hget] at hred
  refine ⟨_, hred, ?_, ?_⟩
  · exact lookupEnv_setEnv_self _ _ _
  · rw [lookupEnv_setEnv_ne _ _ _ _ (by decide)]
    exact lookupEnv_setEnv_self _ _ _

theorem C1_expansion_ordering_witness :
    lookupEnv [] "KEY_0" = none ∧ lookupEnv [] "KEY_1" = none ∧
    ∃ s', readParseStore ["KEY_0=a", "KEY_1=${KEY_0}b", "KEY_0=c"]
        true true false [] = .ok s' ∧
      lookupEnv s' "KEY_0" = some "c" ∧ lookupEnv s' "KEY_1" = some "ab" :=
  ⟨rfl, rfl, C1_expansion_ordering [] false rfl rfl⟩

/-- C2. With `forced = false`, a file holding any non-blank,
non-comment line that fails to parse makes the call return an error,
and the environment is exactly as before the call: the apply phase
never starts. -/
theorem C2_unforced_abort (file : List String) (expand update : Bool)
    (s : Store) (line : String) (hmem : line ∈ file)
    (hne : isEmpty line = false)
    (herr : ∃ e, parseExpression line = .error e) :
    (∃ e', readParseStore file expand update false s = .error e') ∧
    envAfter (readParseStore file expand update false s) s = s := by
  obtain ⟨e', he'⟩ := firstError_isSome_of_bad expand hmem hne herr
  constructor
  · exact ⟨e', by simp [readParseStore, readParseStoreSched, he']⟩
  · simp [readParseStore, readParseStoreSched, he', envAfter]

theorem C2_unforced_abort_witness :
    (∃ e', readParseStore ["GOOD=1", "1BAD"] true true false [] = .error e') ∧
    envAfter (readParseStore ["GOOD=1", "1BAD"] true true false []) [] = [] :=
  C2_unforced_abort ["GOOD=1", "1BAD"] true true [] "1BAD" (by decide)
    (by decide) ⟨ParseErr.missingName "1BAD", rfl⟩

/-- C3. With `forced = true` the call never fails on malformed
content (the model has no I/O and its store writes are total, the only
other error sources); and the concrete ten-line file with exactly one
malformed line yields no error and exactly its nine valid entries. -/
theorem C3_forced_tolerance :
    (∀ (file : List String) (expand update : Bool) (s : Store),
      ∃ s', readParseStore file expand update true s = .ok s') ∧
    readParseStore
      ["A0=v0", "A1=v1", "A2=v2", "A3=v3", "1BAD=x",
       "A4=v4", "A5=v5", "A6=v6", "A7=v7", "A8=v8"] true true true []
      = .ok [("A0", "v0"), ("A1", "v1"), ("A2", "v2"), ("A3", "v3"),
             ("A4", "v4"), ("A5", "v5"), ("A6", "v6"), ("A7", "v7"),
             ("A8", "v8")] := by
  constructor
  · intro file expand update s
    exact ⟨_, rfl⟩
  · rfl

/-- A syntactically valid key name: `[A-Za-z_][A-Za-z_0-9]*`. -/
def validKey (k : String) : Bool :=
  match k.data with
  | [] => false
  | c :: rest => isKeyStart c && (c :: rest).all isWordChar

/-- On an input `KEY=…` with a valid key, `keyRgx` captures exactly the
key.  The `export` alternative can never fire here: the byte at
position 6 is either a key byte, or the `=`, or the prefix check
already failed — never white space. -/
theorem keyRgxMatch_key_append (k : String) (t : List Char)
    (hk : validKey k = true) :
    keyRgxMatch (k.data ++ '=' :: t) = some k.data := by
  obtain ⟨c0, rest, hcons⟩ : ∃ c0 rest, k.data = c0 :: rest := by
    unfold validKey at hk
    rcases hdata : k.data with _ | ⟨c0, rest⟩
    · rw [hdata] at hk; cases hk
    · exact ⟨c0, rest, rfl⟩
  have hk' := hk
  unfold validKey at hk'
  rw [hcons] at hk'
  simp only [Bool.and_eq_true, List.all_eq_true] at hk'
  obtain ⟨hstart, hall⟩ := hk'
  have hword : ∀ c ∈ k.data, isWordChar c = true := by
    intro c hc; rw [hcons] at hc; exact hall c hc
  have hcs1 : (k.data ++ '=' :: t).dropWhile isSpaceRE2 = k.data ++ '=' :: t := by
    rw [hcons]
    simp [List.dropWhile_cons, word_not_space (keyStart_word hstart)]
  have hexp : ¬ ("export".data.isPrefixOf (k.data ++ '=' :: t) = true ∧
      ((((k.data ++ '=' :: t).drop 6).head?.map isSpaceRE2).getD false) = true) := by
    rintro ⟨hpre, hsp⟩
    rcases Nat.lt_trichotomy k.data.length 6 with hlt | heq | hgt
    · have hpre' : "export".data <+: (k.data ++ '=' :: t) :=
        List.isPrefixOf_iff_prefix.mp hpre
      have htake : "export".data = (k.data ++ '=' :: t).take 6 :=
        List.prefix_iff_eq_take.mp hpre'
      have hmem : '=' ∈ (k.data ++ '=' :: t).take 6 := by
        rw [List.take_append_eq_append_take]
        refine List.mem_append.mpr (.inr ?_)
        rcases h6 : 6 - k.data.length with _ | m
        · omega
        · simp
      rw [← htake] at hmem
      exact absurd hmem (by decide)
    · have hdrop : (k.data ++ '=' :: t).drop 6 = '=' :: t := by
        rw [← heq]; exact List.drop_left _ _
      rw [hdrop] at hsp
      simp [isSpaceRE2] at hsp
    · have hdrop : (k.data ++ '=' :: t).drop 6 = k.data.drop 6 ++ '=' :: t :=
        @List.drop_append_of_le_length _ k.data ('=' :: t) 6 (by omega)
      rw [hdrop] at hsp
      have hne : k.data.drop 6 ≠ [] := by
        rw [ne_eq, List.drop_eq_nil_iff_le]
        omega
      obtain ⟨d, ds, hds⟩ := List.exists_cons_of_ne_nil hne
      rw [hds] at hsp
      simp only [List.cons_append, List.head?_cons, Option.map_some',
        Option.getD_some] at hsp
      have hd : d ∈ k.data := by
        refine @List.mem_of_mem_drop _ d 6 k.data ?_
        rw [hds]; exact List.mem_cons_self _ _
      rw [word_not_space (hword d hd)] at hsp
      cases hsp
  have hrun : (k.data ++ '=' :: t).takeWhile isWordChar = k.data :=
    takeWhile_append_stop hword (by decide)
  have hdropArr : (k.data ++ '=' :: t).drop k.data.length = '=' :: t :=
    List.drop_left _ _
  unfold keyRgxMatch
  rw [hcs1, if_neg (by simpa using hexp)]
  unfold keyThenEq
  rw [hrun, hdropArr]
  rw [hcons]
  simp [hstart]

/-- C9. A declaration whose value is empty or begins with white
space right after the `=` is rejected with an incorrect-value error:
for a valid key, `KEY=` at end of line or `KEY= …` never yields the
pair `(KEY, "")`. -/
theorem C9_empty_value_rejected (k t : String) (hk : validKey k = true)
    (ht : ∀ c, t.data.head? = some c → isSpaceRE2 c = true) :
    parseExpression (k ++ "=" ++ t)
      = .error (.incorrectValue (String.mk ('=' :: t.data))) := by
  have hdata : (k ++ "=" ++ t).data = k.data ++ '=' :: t.data := by
    simp [String.data_append]
  have hword : ∀ c ∈ k.data, isWordChar c = true := by
    unfold validKey at hk
    rcases hdk : k.data with _ | ⟨c0, rest⟩
    · rw [hdk] at hk; cases hk
    · rw [hdk] at hk
      simp only [Bool.and_eq_true, List.all_eq_true] at hk
      exact fun c hc => hk.2 c hc
  have hval : valueRgxMatch ('=' :: t.data) = false := by
    rcases hdt : t.data with _ | ⟨c, t'⟩
    · rfl
    · have := ht c (by rw [hdt]; rfl)
      simp [valueRgxMatch, this]
  unfold parseExpression
  rw [hdata, keyRgxMatch_key_append k t.data hk, findIdx_append_eq hword]
  simp only [List.drop_left, hval, Bool.false_eq_true, if_false]

theorem C9_empty_value_rejected_witness :
    validKey "KEY" = true ∧
    parseExpression ("KEY" ++ "=" ++ "")
      = .error (.incorrectValue (String.mk ('=' :: "".data))) :=
  ⟨by decide, C9_empty_value_rejected "KEY" "" (by decide) (by intro c hc; cases hc)⟩

/-- C10, counterexample. Splitting the empty string does not always
yield zero elements for limits other than 1: with the one-byte NUL
separator (the zero value the loop variable `char` retains when the
loop never runs, so that `string(char) == sep` holds) and limit `-1`,
the result is `[""]`, one empty element. -/
theorem C10_ce :
    splitN "" (String.mk [Char.ofNat 0]) (-1) = some [""] ∧
    (some [""] : Option (List String)) ≠ some [] := by
  constructor
  · rfl
  · simp

/-- C10, amended. For every limit other than `0` and `1`, splitting
the empty string yields zero elements — except with the one-byte NUL
separator, which equals `string(char)` for the never-assigned loop
variable and therefore appends one final empty piece, yielding `[""]`.
(`n = 0` yields `[]` and `n = 1` yields `[""]` before the loop.) -/
theorem C10_empty_split (sep : String) (n : Int) (h0 : n ≠ 0) (h1 : n ≠ 1) :
    splitN "" sep n
      = some (if sep = String.mk [Char.ofNat 0] then [String.mk []] else []) := by
  unfold splitN
  rw [if_neg h0, if_neg h1]
  show (some (splitFinish sep.data splitInit)).map (List.map String.mk) = _
  unfold splitFinish splitInit
  by_cases hs : sep = String.mk [Char.ofNat 0]
  · have hdata : sep.data = [Char.ofNat 0] := by rw [hs]
    simp [hdata, hs]
  · have hdata : sep.data ≠ [Char.ofNat 0] := by
      intro hd
      apply hs
      cases sep with
      | mk d => exact congrArg String.mk hd
    simp [hdata, hs]

theorem C10_empty_split_witness :
    ((-1 : Int) ≠ 0 ∧ (-1 : Int) ≠ 1) ∧
    splitN "" "," (-1)
      = some (if "," = String.mk [Char.ofNat 0] then [String.mk []] else []) :=
  ⟨⟨by decide, by decide⟩, C10_empty_split "," (-1) (by decide) (by decide)⟩

/-- C6, counterexample. An unquoted value containing no `#` is not
truncated at white space: `KEY=a b` parses to the value `"a b"`, not
`"a"` — the split-at-space rule only runs when the value contains a
`#`. -/
theorem C6_ce :
    parseExpression "KEY=a b" = .ok ("KEY", "a b") ∧ ("a b" : String) ≠ "a" := by
  constructor
  · rfl
  · simp

/-- C6, amended. For an unquoted value: when it contains `#`,
everything from the first space or the first `#` on — whichever comes
first — is discarded (and the kept prefix is trimmed); when it
contains no `#`, the value is kept whole, internal white space
included. -/
theorem C6_unquoted_value (v : List Char)
    (hq : v.head? ≠ some '\'' ∧ v.head? ≠ some '"' ∧ v.head? ≠ some '`') :
    parseValue v
      = .ok (if v.contains '#'
             then trimSpace (v.takeWhile fun c => ¬(c = ' ' ∨ c = '#'))
             else v) := by
  obtain ⟨hq1, hq2, hq3⟩ := hq
  unfold parseValue
  rw [if_neg hq1, if_neg hq2, if_neg hq3, if_pos rfl]
  by_cases hc : v.contains '#'
  · rw [if_pos hc, if_pos hc]
    simp only [goSplitAll_head, takeWhile_fused]
    have hfun : (fun c => decide ¬c = '#' && decide ¬c = ' ')
        = (fun c : Char => decide ¬(c = ' ' ∨ c = '#')) := by
      funext c
      by_cases hsp : c = ' ' <;> by_cases hsh : c = '#' <;> simp [hsp, hsh]
    rw [hfun]
  · rw [if_neg hc, if_neg hc]

theorem C6_unquoted_value_witness :
    parseValue "a b#c".data
      = .ok (if "a b#c".data.contains '#'
             then trimSpace ("a b#c".data.takeWhile fun c => ¬(c = ' ' ∨ c = '#'))
             else "a b#c".data) :=
  C6_unquoted_value "a b#c".data ⟨by decide, by decide, by decide⟩

/-! ## Helper lemmas on the apply phase -/

theorem readParseStore_ok_eq {file : List String} {expand update forced : Bool}
    {s s' : Store}
    (h : readParseStore file expand update forced s = .ok s') :
    s' = applyLoop expand update (goodOutputs expand (numberLines 0 file))
          s 0 file.length := by
  unfold readParseStore readParseStoreSched at h
  by_cases hf : forced = true
  · rw [if_pos hf] at h
    exact (Except.ok.inj h).symm
  · rw [if_neg hf] at h
    cases hfe : firstError expand (numberLines 0 file) with
    | none => rw [hfe] at h; exact (Except.ok.inj h).symm
    | some e => rw [hfe] at h; cases h

theorem applyLoop_preserves_of_not_update (expand : Bool)
    (outs : List (Nat × Output)) (k v : String) :
    ∀ (count : Nat) (s : Store) (i : Nat), lookupEnv s k = some v →
      lookupEnv (applyLoop expand false outs s i count) k = some v := by
  intro count
  induction count with
  | zero => intro s i h; exact h
  | succ m ih =>
    intro s i h
    simp only [applyLoop]
    cases houtAt : outAt outs i with
    | none => exact ih _ _ h
    | some o =>
      by_cases hk : o.key = k
      · have : (lookupEnv s o.key).isNone = false := by
          rw [hk, h]; rfl
        simp only [Bool.false_or, this]
        exact ih _ _ h
      · by_cases hnone : (lookupEnv s o.key).isNone
        · simp only [Bool.false_or, hnone, if_pos]
          refine ih _ _ ?_
          rw [lookupEnv_setEnv_ne _ _ _ _ hk]
          exact h
        · simp only [Bool.false_or, hnone]
          exact ih _ _ h

theorem applyLoop_add (expand update : Bool) (outs : List (Nat × Output)) :
    ∀ (a b : Nat) (s : Store) (i : Nat),
      applyLoop expand update outs s i (a + b)
        = applyLoop expand update outs (applyLoop expand update outs s i a)
            (i + a) b := by
  intro a
  induction a with
  | zero => intro b s i; simp [applyLoop]
  | succ m ih =>
    intro b s i
    have harith : m + 1 + b = (m + b) + 1 := by omega
    rw [harith]
    simp only [applyLoop]
    rw [ih]
    congr 1
    omega

theorem outAt_mem {outs : List (Nat × Output)} {i : Nat} {o : Output}
    (h : outAt outs i = some o) : (i, o) ∈ outs := by
  unfold outAt at h
  cases hf : outs.find? (fun p => p.1 = i) with
  | none => rw [hf] at h; cases h
  | some p =>
    rw [hf] at h
    have hp := List.find?_some hf
    have hm := List.mem_of_find?_eq_some hf
    simp only [Option.map_some', Option.some.injEq] at h
    simp only [decide_eq_true_eq] at hp
    rw [← h, ← hp]
    exact hm

theorem applyLoop_lookup_of_no_key (expand update : Bool)
    (outs : List (Nat × Output)) (k : String) :
    ∀ (count : Nat) (s : Store) (i : Nat),
      (∀ j o, i ≤ j → j < i + count → outAt outs j = some o → o.key ≠ k) →
      lookupEnv (applyLoop expand update outs s i count) k = lookupEnv s k := by
  intro count
  induction count with
  | zero => intro s i _; rfl
  | succ m ih =>
    intro s i h
    simp only [applyLoop]
    cases houtAt : outAt outs i with
    | none =>
      exact ih _ _ fun j o hj1 hj2 ho => h j o (by omega) (by omega) ho
    | some o =>
      have hk : o.key ≠ k := h i o (le_refl i) (by omega) houtAt
      have hnext : ∀ j o', i + 1 ≤ j → j < (i + 1) + m →
          outAt outs j = some o' → o'.key ≠ k :=
        fun j o' hj1 hj2 ho => h j o' (by omega) (by omega) ho
      by_cases hset : (update || (lookupEnv s o.key).isNone) = true
      · simp only [hset, if_pos]
        rw [ih _ _ hnext, lookupEnv_setEnv_ne _ _ _ _ hk]
      · simp only [hset]
        exact ih _ _ hnext

theorem outAt_eq_of_mem {outs : List (Nat × Output)} {j : Nat} {o : Output}
    (hnd : (outs.map Prod.fst).Nodup) (hm : (j, o) ∈ outs) :
    outAt outs j = some o := by
  induction outs with
  | nil => cases hm
  | cons p tl ih =>
    simp only [List.map_cons, List.nodup_cons] at hnd
    rcases List.mem_cons.mp hm with heq | htl
    · rw [← heq]
      simp [outAt, List.find?_cons]
    · have hne : p.1 ≠ j := by
        intro hj
        exact hnd.1 (hj ▸ (List.mem_map_of_mem Prod.fst htl : (j, o).1 ∈ _))
      unfold outAt
      rw [List.find?_cons_of_neg _ (by simpa using hne)]
      exact ih hnd.2 htl

theorem goodOutputs_fst_sublist (expand : Bool) (sched : List (Nat × String)) :
    List.Sublist ((goodOutputs expand sched).map Prod.fst)
      (sched.map Prod.fst) := by
  induction sched with
  | nil => simp [goodOutputs]
  | cons nt tl ih =>
    unfold goodOutputs at ih ⊢
    simp only [List.filterMap_cons]
    cases parseLine expand nt.2 with
    | none => exact ih.trans (List.sublist_cons_self _ _)
    | some r =>
      cases r with
      | error e => exact ih.trans (List.sublist_cons_self _ _)
      | ok o => simpa using ih.cons₂ nt.1

theorem numberLines_map_fst (n : Nat) (l : List String) :
    (numberLines n l).map Prod.fst = List.range' n l.length := by
  induction l generalizing n with
  | nil => rfl
  | cons hd tl ih => simp [numberLines, List.range'_succ, ih]

theorem goodOutputs_keys_nodup (expand : Bool) (file : List String) (n : Nat) :
    ((goodOutputs expand (numberLines n file)).map Prod.fst).Nodup :=
  ((goodOutputs_fst_sublist expand (numberLines n file)).nodup
    (by rw [numberLines_map_fst]; exact List.nodup_range' _ _))

theorem goodOutputs_mem_lt {expand : Bool} {file : List String} {j : Nat}
    {o : Output} (hm : (j, o) ∈ goodOutputs expand (numberLines 0 file)) :
    j < file.length := by
  have hj : j ∈ (goodOutputs expand (numberLines 0 file)).map Prod.fst :=
    List.mem_map_of_mem Prod.fst hm
  have hj2 :=
    List.Sublist.mem hj (goodOutputs_fst_sublist expand (numberLines 0 file))
  rw [numberLines_map_fst] at hj2
  have hj3 := List.mem_range'_1.mp hj2
  omega

/-- C4. Update policy.  With `update = false`, every key present in
the store before the call still has its pre-call value afterwards
(whether the call succeeds or aborts).  With `update = true`, every
successfully parsed key ends up bound to the value produced from the
file's last entry for it — the entry's value, expanded against the
store state reached just before that entry is applied. -/
theorem C4_update_policy :
    (∀ (file : List String) (expand forced : Bool) (s : Store) (k v : String),
       lookupEnv s k = some v →
       lookupEnv (envAfter (readParseStore file expand false forced s) s) k
         = some v) ∧
    (∀ (file : List String) (expand forced : Bool) (s s' : Store)
       (j : Nat) (o : Output),
       readParseStore file expand true forced s = .ok s' →
       (j, o) ∈ goodOutputs expand (numberLines 0 file) →
       (∀ j' o', (j', o') ∈ goodOutputs expand (numberLines 0 file) →
          o'.key = o.key → j' ≤ j) →
       lookupEnv s' o.key
         = some (stepVal expand
             (applyLoop expand true (goodOutputs expand (numberLines 0 file))
               s 0 j) o)) := by
  constructor
  · intro file expand forced s k v hkv
    cases hres : readParseStore file expand false forced s with
    | error e => simpa [envAfter] using hkv
    | ok s' =>
      have hs' := readParseStore_ok_eq hres
      subst hs'
      simp only [envAfter]
      exact applyLoop_preserves_of_not_update expand _ k v _ s 0 hkv
  · intro file expand forced s s' j o hok hmem hlast
    have hs' := readParseStore_ok_eq hok
    subst hs'
    have hjlt : j < file.length := goodOutputs_mem_lt hmem
    have houtAt : outAt (goodOutputs expand (numberLines 0 file)) j = some o :=
      outAt_eq_of_mem (goodOutputs_keys_nodup expand file 0) hmem
    have hsplitLen : file.length = j + (file.length - j - 1 + 1) := by omega
    rw [hsplitLen, applyLoop_add, Nat.zero_add]
    simp only [applyLoop, houtAt, Bool.true_or, if_pos]
    rw [applyLoop_lookup_of_no_key]
    · exact lookupEnv_setEnv_self _ _ _
    · intro j' o' hj1 hj2 ho' hk
      have hmem' := outAt_mem ho'
      have := hlast j' o' hmem' hk
      omega

theorem C4_update_policy_witness :
    (lookupEnv [("K", "old")] "K" = some "old" ∧
     lookupEnv
       (envAfter (readParseStore ["K=new"] false false false [("K", "old")])
         [("K", "old")]) "K" = some "old") ∧
    (readParseStore ["K=a"] false true false [] = .ok [("K", "a")] ∧
     lookupEnv [("K", "a")] (Output.mk false "a" "K").key
       = some (stepVal false
           (applyLoop false true (goodOutputs false (numberLines 0 ["K=a"]))
             [] 0 0) (Output.mk false "a" "K"))) := by
  refine ⟨⟨rfl, ?_⟩, rfl, ?_⟩
  · exact C4_update_policy.1 ["K=new"] false false [("K", "old")] "K" "old" rfl
  · refine C4_update_policy.2 ["K=a"] false false [] [("K", "a")] 0
      (Output.mk false "a" "K") rfl (by decide) ?_
    intro j' o' hm _hk
    have h1 : (j', o') = (0, Output.mk false "a" "K") := by
      have : goodOutputs false (numberLines 0 ["K=a"])
          = [(0, Output.mk false "a" "K")] := by decide
      rw [this] at hm
      exact List.mem_singleton.mp hm
    have := congrArg Prod.fst h1
    simp at this
    omega

/-! ## Helper lemmas for schedule invariance -/

/-- Did the call succeed? -/
def isOkResult {ε α : Type} : Except ε α → Bool
  | .ok _ => true
  | .error _ => false

theorem eq_of_mem_of_nodup_fst {l : List (Nat × Output)}
    (hnd : (l.map Prod.fst).Nodup) {x y : Nat × Output}
    (hx : x ∈ l) (hy : y ∈ l) (hfst : x.1 = y.1) : x = y := by
  induction l with
  | nil => cases hx
  | cons p tl ih =>
    simp only [List.map_cons, List.nodup_cons] at hnd
    rcases List.mem_cons.mp hx with hxp | hx' <;>
      rcases List.mem_cons.mp hy with hyp | hy'
    · rw [hxp, hyp]
    · exfalso
      apply hnd.1
      rw [← hxp, hfst]
      exact List.mem_map_of_mem Prod.fst hy'
    · exfalso
      apply hnd.1
      rw [← hyp, ← hfst]
      exact List.mem_map_of_mem Prod.fst hx'
    · exact ih hnd.2 hx' hy'

theorem find?_eq_of_perm_of_unique {α : Type} (p : α → Bool) {l l' : List α}
    (hperm : l.Perm l')
    (huniq : ∀ x ∈ l, ∀ y ∈ l, p x = true → p y = true → x = y) :
    l.find? p = l'.find? p := by
  by_cases hex : ∃ x ∈ l, p x = true
  · obtain ⟨x, hxl, hpx⟩ := hex
    have h1 : (l.find? p).isSome := List.find?_isSome.mpr ⟨x, hxl, hpx⟩
    have h2 : (l'.find? p).isSome :=
      List.find?_isSome.mpr ⟨x, hperm.mem_iff.mp hxl, hpx⟩
    obtain ⟨a, ha⟩ := Option.isSome_iff_exists.mp h1
    obtain ⟨b, hb⟩ := Option.isSome_iff_exists.mp h2
    rw [ha, hb]
    have hpa := List.find?_some ha
    have hma := List.mem_of_find?_eq_some ha
    have hpb := List.find?_some hb
    have hmb := hperm.mem_iff.mpr (List.mem_of_find?_eq_some hb)
    rw [huniq a hma b hmb hpa hpb]
  · push_neg at hex
    rw [List.find?_eq_none.mpr, List.find?_eq_none.mpr]
    · intro x hx
      exact hex x (hperm.mem_iff.mpr hx)
    · intro x hx
      exact hex x hx

theorem outAt_eq_of_perm {outs outs' : List (Nat × Output)}
    (hperm : outs.Perm outs') (hnd : (outs.map Prod.fst).Nodup) (i : Nat) :
    outAt outs i = outAt outs' i := by
  unfold outAt
  rw [find?_eq_of_perm_of_unique _ hperm]
  intro x hx y hy hpx hpy
  simp only [decide_eq_true_eq] at hpx hpy
  exact eq_of_mem_of_nodup_fst hnd hx hy (hpx.trans hpy.symm)

theorem applyLoop_congr_outAt {expand update : Bool}
    {outs outs' : List (Nat × Output)}
    (h : ∀ i, outAt outs i = outAt outs' i) :
    ∀ (count : Nat) (s : Store) (i : Nat),
      applyLoop expand update outs s i count
        = applyLoop expand update outs' s i count := by
  intro count
  induction count with
  | zero => intro s i; rfl
  | succ m ih =>
    intro s i
    simp only [applyLoop, h i]
    exact ih _ _

theorem firstError_none_iff_of_perm (expand : Bool)
    {sched sched' : List (Nat × String)} (hperm : sched.Perm sched') :
    firstError expand sched = none ↔ firstError expand sched' = none := by
  unfold firstError
  rw [List.head?_eq_none_iff, List.head?_eq_none_iff]
  have hp := hperm.filterMap (fun nt =>
    match parseLine expand nt.2 with
    | some (.error e) => some e
    | _ => none)
  constructor
  · intro h
    rw [h] at hp
    exact hp.symm.eq_nil
  · intro h
    rw [h] at hp
    exact hp.eq_nil

/-- C5. Determinism in the worker schedule: whatever order the
worker pool processes the numbered lines in (any permutation of the
scanner's order — in particular any pool size), the final store state
and the success of the call are those of the canonical sequential run.
The quantities `expand`, `update`, `forced`, the file and the initial
store are the only inputs the outcome depends on. -/
theorem C5_schedule_determinism (file : List String)
    (expand update forced : Bool) (s : Store)
    (sched : List (Nat × String))
    (hperm : sched.Perm (numberLines 0 file)) :
    envAfter (readParseStoreSched sched file.length expand update forced s) s
      = envAfter (readParseStore file expand update forced s) s ∧
    (isOkResult (readParseStoreSched sched file.length expand update forced s)
      = isOkResult (readParseStore file expand update forced s)) := by
  have hpout : (goodOutputs expand sched).Perm
      (goodOutputs expand (numberLines 0 file)) := by
    unfold goodOutputs
    exact hperm.filterMap _
  have hndc : ((goodOutputs expand (numberLines 0 file)).map Prod.fst).Nodup :=
    goodOutputs_keys_nodup expand file 0
  have hnds : ((goodOutputs expand sched).map Prod.fst).Nodup := by
    rw [List.Perm.nodup_iff (hpout.map Prod.fst)]
    exact hndc
  have houtEq : ∀ i, outAt (goodOutputs expand sched) i
      = outAt (goodOutputs expand (numberLines 0 file)) i :=
    outAt_eq_of_perm hpout hnds
  have happly : applyLoop expand update (goodOutputs expand sched) s 0 file.length
      = applyLoop expand update (goodOutputs expand (numberLines 0 file))
          s 0 file.length :=
    applyLoop_congr_outAt houtEq _ _ _
  unfold readParseStore readParseStoreSched
  by_cases hf : forced = true
  · rw [if_pos hf, if_pos hf]
    simp [envAfter, isOkResult, happly]
  · rw [if_neg hf, if_neg hf]
    cases hfc : firstError expand (numberLines 0 file) with
    | none =>
      have hfs : firstError expand sched = none :=
        (firstError_none_iff_of_perm expand hperm).mpr hfc
      rw [hfs]
      simp [envAfter, isOkResult, happly]
    | some e =>
      have hfs : firstError expand sched ≠ none := by
        intro hnone
        rw [(firstError_none_iff_of_perm expand hperm).mp hnone] at hfc
        cases hfc
      cases hfss : firstError expand sched with
      | none => exact absurd hfss hfs
      | some e' => simp [envAfter, isOkResult]

theorem C5_schedule_determinism_witness :
    envAfter (readParseStoreSched [(1, "B=2"), (0, "A=1")] 2 true true false [])
        []
      = envAfter (readParseStore ["A=1", "B=2"] true true false []) [] ∧
    isOkResult (readParseStoreSched [(1, "B=2"), (0, "A=1")] 2 true true false [])
      = isOkResult (readParseStore ["A=1", "B=2"] true true false []) :=
  C5_schedule_determinism ["A=1", "B=2"] true true false []
    [(1, "B=2"), (0, "A=1")] (by decide)

/-! ## Helper lemmas for the tokenizer claims

`glueAcc sep acc tmp` is the text the loop has consumed so far: each
emitted piece was followed by one separator occurrence, and `tmp` is
the piece under construction. -/

/-- The input consumed to reach a loop state. -/
def glueAcc (sep : List Char) (acc : List (List Char)) (tmp : List Char) :
    List Char :=
  acc.foldr (fun piece r => piece ++ sep ++ r) tmp

theorem glueAcc_base_append (sep : List Char) (acc : List (List Char))
    (b x : List Char) :
    glueAcc sep acc (b ++ x) = glueAcc sep acc b ++ x := by
  induction acc with
  | nil => rfl
  | cons a acc' ih => simp [glueAcc, List.foldr_cons] at ih ⊢; simp [ih]

theorem glueAcc_acc_append (sep : List Char) (acc : List (List Char))
    (p b : List Char) :
    glueAcc sep (acc ++ [p]) b = glueAcc sep acc (p ++ sep ++ b) := by
  induction acc with
  | nil => rfl
  | cons a acc' ih =>
    simp only [glueAcc, List.foldr_cons, List.cons_append] at ih ⊢
    rw [ih]

theorem intercalate_cons_of_ne_nil {sep a : List Char}
    {l : List (List Char)} (h : l ≠ []) :
    List.intercalate sep (a :: l) = a ++ sep ++ List.intercalate sep l := by
  obtain ⟨b, t, rfl⟩ := List.exists_cons_of_ne_nil h
  unfold List.intercalate
  rw [List.intersperse_cons_cons]
  simp [List.append_assoc]

theorem intercalate_eq_glueAcc (sep : List Char) (acc : List (List Char))
    (x : List Char) :
    List.intercalate sep (acc ++ [x]) = glueAcc sep acc x := by
  induction acc with
  | nil => simp [List.intercalate, glueAcc]
  | cons a acc' ih =>
    rw [List.cons_append, intercalate_cons_of_ne_nil (by simp), ih]
    rfl

theorem splitFinish_length_le (sep : List Char) (st : SplitState) :
    (splitFinish sep st).length ≤ st.acc.length + 1 := by
  unfold splitFinish
  split <;> simp

/-- Main invariant of the `splitN` loop for positive limits: the
emitted pieces never exceed the limit, and when they reach it exactly,
the pieces joined with the separator give back the input (the last
piece is the unsplit remainder). -/
theorem splitNLoop_break_join (sep : List Char) (n : Int) (s₀ : List Char) :
    ∀ (fuel : Nat) (xs : List Char) (st : SplitState) (r : List (List Char)),
      (st.acc.length : Int) + 2 ≤ n →
      glueAcc sep st.acc st.tmp ++ xs = s₀ →
      splitNLoop sep n fuel xs st = some r →
      (r.length : Int) ≤ n ∧
      ((r.length : Int) = n → List.intercalate sep r = s₀) := by
  intro fuel
  induction fuel with
  | zero => intro xs st r _ _ hrun; cases hrun
  | succ fuel ih =>
    intro xs st r hlen hglue hrun
    cases xs with
    | nil =>
      simp only [splitNLoop, Option.some.injEq] at hrun
      subst hrun
      have hfl := splitFinish_length_le sep st
      refine ⟨by omega, ?_⟩
      intro heq
      exfalso
      omega
    | cons c rest =>
      simp only [splitNLoop] at hrun
      by_cases h1 : ({ st with lastChar := c } : SplitState).level = (0 : Int) ∧
          (c ∈ quoteChars ∨ c ∈ bracketChars)
      · rw [if_pos h1] at hrun
        refine ih rest _ r ?_ ?_ hrun
        · exact hlen
        · simp only [glueAcc_base_append]
          simpa using hglue
      · rw [if_neg h1] at hrun
        by_cases h2 : ({ st with lastChar := c } : SplitState).host = c ∧
            c ∈ quoteChars
        · rw [if_pos h2] at hrun
          refine ih rest _ r ?_ ?_ hrun
          · exact hlen
          · simp only [glueAcc_base_append]
            simpa using hglue
        · rw [if_neg h2] at hrun
          by_cases h3 : ({ st with lastChar := c } : SplitState).host = flipsMap c ∧
              ({ st with lastChar := c } : SplitState).host ∈ bracketChars
          · rw [if_pos h3] at hrun
            by_cases h3' : ({ st with lastChar := c } : SplitState).level - 1 ≤ (0 : Int)
            · rw [if_pos h3'] at hrun
              refine ih rest _ r ?_ ?_ hrun
              · exact hlen
              · simp only [glueAcc_base_append]
                simpa using hglue
            · rw [if_neg h3'] at hrun
              refine ih rest _ r ?_ ?_ hrun
              · exact hlen
              · simp only [glueAcc_base_append]
                simpa using hglue
          · rw [if_neg h3] at hrun
            by_cases h4 : ({ st with lastChar := c } : SplitState).level = (0 : Int) ∧
                sep.isPrefixOf (c :: rest)
            · rw [if_pos h4] at hrun
              have hsep : sep ++ (c :: rest).drop sep.length = c :: rest := by
                have hp : sep <+: (c :: rest) :=
                  List.isPrefixOf_iff_prefix.mp h4.2
                obtain ⟨t, ht⟩ := hp
                have hdt : (c :: rest).drop sep.length = t := by
                  rw [← ht]; exact List.drop_left _ _
                rw [hdt, ht]
              have hglue' : glueAcc sep (st.acc ++ [st.tmp])
                  ((c :: rest).drop sep.length) = s₀ := by
                rw [glueAcc_acc_append, glueAcc_base_append, glueAcc_base_append,
                  List.append_assoc, hsep]
                exact hglue
              by_cases h5 : n > 0 ∧ n = ((st.acc ++ [st.tmp]).length : Int) + 1
              · rw [if_pos h5] at hrun
                simp only [Option.some.injEq] at hrun
                subst hrun
                unfold splitFinish
                split
                · refine ⟨?_, ?_⟩
                  · simp only [List.length_append, List.length_singleton]
                    simp only [List.length_append, List.length_singleton] at h5
                    push_cast at h5 ⊢
                    omega
                  · intro _
                    rw [intercalate_eq_glueAcc]
                    exact hglue'
                · refine ⟨?_, ?_⟩
                  · simp only [List.length_append, List.length_singleton]
                    simp only [List.length_append, List.length_singleton] at h5
                    push_cast at h5 ⊢
                    omega
                  · intro heq
                    exfalso
                    simp only [List.length_append, List.length_singleton] at heq h5
                    push_cast at heq h5
                    omega
              · rw [if_neg h5] at hrun
                have hn2 : 0 < n := by
                  have hnn : (0 : Int) ≤ (st.acc.length : Int) := by positivity
                  omega
                refine ih _ _ r ?_ ?_ hrun
                · have hne : n ≠ ((st.acc ++ [st.tmp]).length : Int) + 1 := by
                    intro hcontra
                    exact h5 ⟨hn2, hcontra⟩
                  simp only [List.length_append, List.length_singleton] at hne ⊢
                  push_cast at hne ⊢
                  omega
                · have hz : glueAcc sep (st.acc ++ [st.tmp]) []
                      ++ (c :: rest).drop sep.length
                      = glueAcc sep (st.acc ++ [st.tmp])
                          ((c :: rest).drop sep.length) := by
                    rw [← glueAcc_base_append]
                    simp
                  rw [hz]
                  exact hglue'
            · rw [if_neg h4] at hrun
              refine ih rest _ r ?_ ?_ hrun
              · exact hlen
              · simp only [glueAcc_base_append]
                simpa using hglue

/-- For non-positive limits the loop never consults `n`: the break
test `n > 0 && n == len(r)+1` is false throughout. -/
theorem splitNLoop_nonpos_eq (sep : List Char) {n m : Int}
    (hn : n ≤ 0) (hm : m ≤ 0) :
    ∀ (fuel : Nat) (xs : List Char) (st : SplitState),
      splitNLoop sep n fuel xs st = splitNLoop sep m fuel xs st := by
  intro fuel
  induction fuel with
  | zero => intro xs st; rfl
  | succ fuel ih =>
    intro xs st
    cases xs with
    | nil => rfl
    | cons c rest =>
      simp only [splitNLoop]
      by_cases h1 : ({ st with lastChar := c } : SplitState).level = (0 : Int) ∧
          (c ∈ quoteChars ∨ c ∈ bracketChars)
      · rw [if_pos h1, if_pos h1]; exact ih _ _
      · rw [if_neg h1, if_neg h1]
        by_cases h2 : ({ st with lastChar := c } : SplitState).host = c ∧
            c ∈ quoteChars
        · rw [if_pos h2, if_pos h2]; exact ih _ _
        · rw [if_neg h2, if_neg h2]
          by_cases h3 : ({ st with lastChar := c } : SplitState).host = flipsMap c ∧
              ({ st with lastChar := c } : SplitState).host ∈ bracketChars
          · rw [if_pos h3, if_pos h3]
            by_cases h3' : ({ st with lastChar := c } : SplitState).level - 1 ≤ (0 : Int)
            · rw [if_pos h3', if_pos h3']; exact ih _ _
            · rw [if_neg h3', if_neg h3']; exact ih _ _
          · rw [if_neg h3, if_neg h3]
            by_cases h4 : ({ st with lastChar := c } : SplitState).level = (0 : Int) ∧
                sep.isPrefixOf (c :: rest)
            · rw [if_pos h4, if_pos h4]
              rw [if_neg (fun hc => absurd hc.1 (by omega)),
                if_neg (fun hc => absurd hc.1 (by omega))]
              exact ih _ _
            · rw [if_neg h4, if_neg h4]; exact ih _ _

/-- Joining pieces with the separator (Go `strings.Join`). -/
def joinSep (sep : String) (l : List String) : String :=
  String.mk (List.intercalate sep.data (l.map String.data))

theorem string_mk_data (s : String) : String.mk s.data = s := by
  cases s with
  | mk d => rfl

theorem joinSep_map_mk (sep : String) (pieces : List (List Char)) :
    joinSep sep (pieces.map String.mk)
      = String.mk (List.intercalate sep.data pieces) := by
  unfold joinSep
  congr 1
  rw [List.map_map]
  have : String.data ∘ String.mk = id := by
    funext p; rfl
  rw [this, List.map_id]

/-- C8. The `limit` semantics of the tokenizer: `0` yields the
empty sequence and `1` the whole string; a positive limit yields at
most `limit` pieces, and when exactly `limit` pieces come back they
join with the separator to the whole input (the last piece holds the
entire unsplit remainder); all negative limits behave identically
(unlimited splitting). -/
theorem C8_limit_semantics :
    (∀ (s sep : String), splitN s sep 0 = some []) ∧
    (∀ (s sep : String), splitN s sep 1 = some [s]) ∧
    (∀ (s sep : String) (n : Int) (r : List String), 0 < n →
       splitN s sep n = some r →
       (r.length : Int) ≤ n ∧
       ((r.length : Int) = n → joinSep sep r = s)) ∧
    (∀ (s sep : String) (n : Int), n < 0 →
       splitN s sep n = splitN s sep (-1)) := by
  refine ⟨fun s sep => rfl, fun s sep => rfl, ?_, ?_⟩
  · intro s sep n r hn hrun
    by_cases h1 : n = 1
    · subst h1
      unfold splitN at hrun
      rw [if_neg (by decide), if_pos rfl] at hrun
      have hr : r = [s] := (Option.some.inj hrun).symm
      subst hr
      refine ⟨by simp, ?_⟩
      intro _
      have : joinSep sep [s] = String.mk (List.intercalate sep.data [s.data]) := rfl
      rw [this, show List.intercalate sep.data [s.data]
          = glueAcc sep.data [] s.data from intercalate_eq_glueAcc sep.data [] s.data]
      exact string_mk_data s
    · have h2 : (2 : Int) ≤ n := by omega
      unfold splitN at hrun
      rw [if_neg (by omega), if_neg h1] at hrun
      obtain ⟨pieces, hp, hr⟩ := Option.map_eq_some'.mp hrun
      have hmain := splitNLoop_break_join sep.data n s.data _ s.data splitInit
        pieces (by simp [splitInit]; omega) (by simp [glueAcc, splitInit]) hp
      subst hr
      constructor
      · simpa using hmain.1
      · intro heq
        rw [joinSep_map_mk]
        rw [hmain.2 (by simpa using heq)]
  · intro s sep n hneg
    unfold splitN
    rw [if_neg (show ¬(n = 0) by omega), if_neg (show ¬(n = 1) by omega),
      if_neg (show ¬((-1 : Int) = 0) by decide),
      if_neg (show ¬((-1 : Int) = 1) by decide)]
    have hfuel : s.data.length + n.toNat + 2
        = s.data.length + (-1 : Int).toNat + 2 := by
      omega
    rw [hfuel, splitNLoop_nonpos_eq sep.data (show n ≤ (0 : Int) by omega)
      (show (-1 : Int) ≤ 0 by decide)]

theorem C8_limit_semantics_witness :
    ((["a", "b,c"].length : Int) ≤ 2 ∧
      (((["a", "b,c"].length : Int) = 2) → joinSep "," ["a", "b,c"] = "a,b,c")) ∧
    splitN "x,y" "," (-2) = splitN "x,y" "," (-1) :=
  ⟨C8_limit_semantics.2.2.1 "a,b,c" "," 2 ["a", "b,c"] (by decide) rfl,
   C8_limit_semantics.2.2.2 "x,y" "," (-2) (by decide)⟩

/-! ## The greedy single-group reference splitter

`splitSpec` makes the tokenizer's protection rule transparent: scanning
left to right at depth 0, the first quote or bracket opener starts a
tracked group, which ends at the first occurrence of its partner rune
(the same quote, or the matching closing bracket); everything inside
the group — separators included — is kept verbatim inside the current
piece, and only separators outside tracked groups split.  Nesting and
overlapping group kinds are not tracked, matching the single
`host`/`level` tracker of the Go loop. -/

/-- A rune that opens a tracked group. -/
def isOpener (ch : Char) : Bool := ch ∈ quoteChars ∨ ch ∈ bracketChars

/-- The partner rune that ends a group opened by `ch`: the same quote,
or the matching closing bracket. -/
def closerOf (ch : Char) : Char :=
  if ch = '(' then ')'
  else if ch = '\x7b' then '\x7d'
  else if ch = '[' then ']'
  else ch

/-- Reference splitter body: `done` counts the pieces already emitted,
`tmp` is the piece under construction. -/
def splitSpecAux (sepc : Char) (n : Int) (done : Nat) :
    List Char → List Char → List (List Char)
  | [], tmp => [tmp]
  | ch :: rest, tmp =>
    if isOpener ch then
      if hr : rest.dropWhile (fun d => ¬ d = closerOf ch) = [] then
        [tmp ++ ch :: rest.takeWhile (fun d => ¬ d = closerOf ch)]
      else
        splitSpecAux sepc n done
          (rest.dropWhile (fun d => ¬ d = closerOf ch)).tail
          (tmp ++ ch :: (rest.takeWhile (fun d => ¬ d = closerOf ch)
            ++ [(rest.dropWhile (fun d => ¬ d = closerOf ch)).headD (Char.ofNat 0)]))
    else if ch = sepc then
      if n > 0 ∧ n = (done : Int) + 2 then [tmp, rest]
      else tmp :: splitSpecAux sepc n (done + 1) rest []
    else splitSpecAux sepc n done rest (tmp ++ [ch])
  termination_by xs _ => xs.length
  decreasing_by
    · have h2 : (rest.dropWhile (fun d => ¬ d = closerOf ch)).length ≤ rest.length :=
        (List.dropWhile_sublist _).length_le
      have h1 : (rest.dropWhile (fun d => ¬ d = closerOf ch)).tail.length
          < (rest.dropWhile (fun d => ¬ d = closerOf ch)).length := by
        cases hc : rest.dropWhile (fun d => ¬ d = closerOf ch) with
        | nil => exact absurd hc hr
        | cons a t => simp
      simp only [List.length_cons]
      omega
    · simp only [List.length_cons]; omega
    · simp only [List.length_cons]; omega

/-- The greedy reference splitter. -/
def splitSpec (sepc : Char) (n : Int) (s : List Char) : List (List Char) :=
  if n = 0 then []
  else if n = 1 then [s]
  else if s = [] then (if sepc = Char.ofNat 0 then [[]] else [])
  else splitSpecAux sepc n 0 s []

/-! Character-class facts used to resolve the loop's branch tests. -/

theorem quote_not_bracket {h : Char} (hq : h ∈ quoteChars)
    (hb : h ∈ bracketChars) : False := by
  simp only [quoteChars, List.mem_cons, List.not_mem_nil, or_false] at hq
  rcases hq with rfl | rfl | rfl <;> revert hb <;> decide

theorem closerOf_quote {h : Char} (hq : h ∈ quoteChars) : closerOf h = h := by
  simp only [quoteChars, List.mem_cons, List.not_mem_nil, or_false] at hq
  rcases hq with rfl | rfl | rfl <;> rfl

theorem flips_eq_closer {d h : Char} (hfl : flipsMap d = h)
    (hb : h ∈ bracketChars) : d = closerOf h := by
  unfold flipsMap at hfl
  split_ifs at hfl with h1 h2 h3
  · subst h1; rw [← hfl]; rfl
  · subst h2; rw [← hfl]; rfl
  · subst h3; rw [← hfl]; rfl
  · rw [← hfl] at hb
    exact absurd hb (by decide)

theorem closer_flips {h : Char} (hb : h ∈ bracketChars) :
    flipsMap (closerOf h) = h := by
  simp only [bracketChars, List.mem_cons, List.not_mem_nil, or_false] at hb
  rcases hb with rfl | rfl | rfl <;> rfl

theorem nul_not_quote : (Char.ofNat 0) ∉ quoteChars := by decide

theorem nul_not_bracket : (Char.ofNat 0) ∉ bracketChars := by decide

/-- With a non-empty separator every loop step consumes at least one
rune, so any fuel exceeding the remaining length gives the same
result. -/
theorem splitNLoop_fuel_irrel (sep : List Char) (hsep : sep ≠ []) (n : Int) :
    ∀ (fuel : Nat) (xs : List Char) (fuel' : Nat) (st : SplitState),
      xs.length < fuel → xs.length < fuel' →
      splitNLoop sep n fuel xs st = splitNLoop sep n fuel' xs st := by
  have hseplen : 0 < sep.length := List.length_pos.mpr hsep
  intro fuel
  induction fuel with
  | zero => intro xs fuel' st hf _; omega
  | succ f ih =>
    intro xs fuel' st hf hf'
    cases fuel' with
    | zero => omega
    | succ f' =>
      cases xs with
      | nil => rfl
      | cons c rest =>
        simp only [List.length_cons] at hf hf'
        simp only [splitNLoop]
        by_cases h1 : ({ st with lastChar := c } : SplitState).level = (0 : Int) ∧
            (c ∈ quoteChars ∨ c ∈ bracketChars)
        · rw [if_pos h1, if_pos h1]; exact ih rest f' _ (by omega) (by omega)
        · rw [if_neg h1, if_neg h1]
          by_cases h2 : ({ st with lastChar := c } : SplitState).host = c ∧
              c ∈ quoteChars
          · rw [if_pos h2, if_pos h2]; exact ih rest f' _ (by omega) (by omega)
          · rw [if_neg h2, if_neg h2]
            by_cases h3 : ({ st with lastChar := c } : SplitState).host = flipsMap c ∧
                ({ st with lastChar := c } : SplitState).host ∈ bracketChars
            · rw [if_pos h3, if_pos h3]
              by_cases h3' : ({ st with lastChar := c } : SplitState).level - 1 ≤ (0 : Int)
              · rw [if_pos h3', if_pos h3']
                exact ih rest f' _ (by omega) (by omega)
              · rw [if_neg h3', if_neg h3']
                exact ih rest f' _ (by omega) (by omega)
            · rw [if_neg h3, if_neg h3]
              by_cases h4 : ({ st with lastChar := c } : SplitState).level = (0 : Int) ∧
                  sep.isPrefixOf (c :: rest)
              · rw [if_pos h4, if_pos h4]
                by_cases h5 : n > 0 ∧
                    n = (((st.acc ++ [st.tmp]).length : Int)) + 1
                · rw [if_pos h5, if_pos h5]
                · rw [if_neg h5, if_neg h5]
                  refine ih _ f' _ ?_ ?_ <;>
                    simp only [List.length_drop, List.length_cons] <;> omega
              · rw [if_neg h4, if_neg h4]
                exact ih rest f' _ (by omega) (by omega)

/-- Inside a tracked group (`level = 1`, `host = h`) a rune other than
the group's partner falls through every branch into the current
piece. -/
theorem splitNLoop_group_step (sep : List Char) (n : Int) {h : Char}
    (hop : isOpener h = true) {d : Char} (hd : d ≠ closerOf h)
    (fuel : Nat) (rest : List Char) (st : SplitState)
    (hl : st.level = 1) (hh : st.host = h) :
    splitNLoop sep n (fuel + 1) (d :: rest) st
      = splitNLoop sep n fuel rest { st with tmp := st.tmp ++ [d], lastChar := d } := by
  simp only [splitNLoop]
  have hb1 : ¬(({ st with lastChar := d } : SplitState).level = (0 : Int) ∧
      (d ∈ quoteChars ∨ d ∈ bracketChars)) := by
    rintro ⟨hlv, _⟩
    have hlv' : st.level = 0 := hlv
    rw [hl] at hlv'
    cases hlv'
  have hb2 : ¬(({ st with lastChar := d } : SplitState).host = d ∧
      d ∈ quoteChars) := by
    rintro ⟨hhd, hdq⟩
    have hhd' : st.host = d := hhd
    rw [hh] at hhd'
    subst hhd'
    exact hd (closerOf_quote hdq).symm
  have hb3 : ¬(({ st with lastChar := d } : SplitState).host = flipsMap d ∧
      ({ st with lastChar := d } : SplitState).host ∈ bracketChars) := by
    rintro ⟨hfl, hbr⟩
    have hfl' : st.host = flipsMap d := hfl
    have hbr' : st.host ∈ bracketChars := hbr
    rw [hh] at hfl' hbr'
    exact hd (flips_eq_closer hfl'.symm hbr')
  have hb4 : ¬(({ st with lastChar := d } : SplitState).level = (0 : Int) ∧
      sep.isPrefixOf (d :: rest)) := by
    rintro ⟨hlv, _⟩
    have hlv' : st.level = 0 := hlv
    rw [hl] at hlv'
    cases hlv'
  rw [if_neg hb1, if_neg hb2, if_neg hb3, if_neg hb4]

/-- Inside a tracked group, the partner rune closes the group and is
kept in the current piece. -/
theorem splitNLoop_group_close (sep : List Char) (n : Int) {h : Char}
    (hop : isOpener h = true)
    (fuel : Nat) (rest : List Char) (st : SplitState)
    (hl : st.level = 1) (hh : st.host = h) :
    splitNLoop sep n (fuel + 1) (closerOf h :: rest) st
      = splitNLoop sep n fuel rest
          { st with
            level := 0, host := Char.ofNat 0,
            tmp := st.tmp ++ [closerOf h], lastChar := closerOf h } := by
  simp only [splitNLoop]
  have hb1 : ¬(({ st with lastChar := closerOf h } : SplitState).level = (0 : Int) ∧
      (closerOf h ∈ quoteChars ∨ closerOf h ∈ bracketChars)) := by
    rintro ⟨hlv, _⟩
    have hlv' : st.level = 0 := hlv
    rw [hl] at hlv'
    cases hlv'
  rw [if_neg hb1]
  simp only [isOpener, Bool.or_eq_true, decide_eq_true_eq] at hop
  rcases hop with hq | hb
  · have hb2 : (({ st with lastChar := closerOf h } : SplitState).host = closerOf h ∧
        closerOf h ∈ quoteChars) := by
      constructor
      · show st.host = closerOf h
        rw [hh, closerOf_quote hq]
      · rw [closerOf_quote hq]; exact hq
    rw [if_pos hb2]
  · have hb2 : ¬(({ st with lastChar := closerOf h } : SplitState).host = closerOf h ∧
        closerOf h ∈ quoteChars) := by
      rintro ⟨hhd, hdq⟩
      have hhd' : st.host = closerOf h := hhd
      rw [hh] at hhd'
      rw [← hhd'] at hdq
      exact quote_not_bracket hdq hb
    rw [if_neg hb2]
    have hb3 : (({ st with lastChar := closerOf h } : SplitState).host
        = flipsMap (closerOf h) ∧
        ({ st with lastChar := closerOf h } : SplitState).host ∈ bracketChars) := by
      constructor
      · show st.host = flipsMap (closerOf h)
        rw [hh, closer_flips hb]
      · show st.host ∈ bracketChars
        rw [hh]; exact hb
    rw [if_pos hb3]
    have hlv : (({ st with lastChar := closerOf h } : SplitState).level - 1 ≤ (0 : Int)) := by
      show st.level - 1 ≤ (0 : Int)
      rw [hl]
      decide
    rw [if_pos hlv]

/-- A group that never closes swallows the rest of the input into the
current piece. -/
theorem splitNLoop_group_noclose (sep : List Char) (n : Int) {h : Char}
    (hop : isOpener h = true) :
    ∀ (grp : List Char) (fuel : Nat) (st : SplitState),
      st.level = 1 → st.host = h → st.tmp ≠ [] →
      (∀ d ∈ grp, d ≠ closerOf h) →
      grp.length < fuel →
      splitNLoop sep n fuel grp st = some (st.acc ++ [st.tmp ++ grp]) := by
  intro grp
  induction grp with
  | nil =>
    intro fuel st hl hh ht _ hf
    cases fuel with
    | zero => omega
    | succ f =>
      simp only [splitNLoop, splitFinish, List.append_nil]
      rw [if_pos (Or.inl ht)]
  | cons d grp' ih =>
    intro fuel st hl hh ht hall hf
    cases fuel with
    | zero => omega
    | succ f =>
      rw [splitNLoop_group_step sep n hop (hall d (List.mem_cons_self _ _)) f grp' st hl hh]
      rw [ih f ({ st with tmp := st.tmp ++ [d], lastChar := d })
        hl hh (by simp) (fun e he => hall e (List.mem_cons_of_mem _ he))
        (by simp only [List.length_cons] at hf; omega)]
      simp

/-- A group that closes: the whole group, partner included, lands in
the current piece and scanning resumes at depth 0. -/
theorem splitNLoop_group_skip (sep : List Char) (hsep : sep ≠ []) (n : Int)
    {h : Char} (hop : isOpener h = true) :
    ∀ (grp : List Char) (rest' : List Char) (fuel : Nat) (st : SplitState),
      st.level = 1 → st.host = h →
      (∀ d ∈ grp, d ≠ closerOf h) →
      (grp ++ closerOf h :: rest').length < fuel →
      splitNLoop sep n fuel (grp ++ closerOf h :: rest') st
        = splitNLoop sep n (rest'.length + 1) rest'
            { st with
              level := 0, host := Char.ofNat 0,
              tmp := st.tmp ++ grp ++ [closerOf h], lastChar := closerOf h } := by
  intro grp
  induction grp with
  | nil =>
    intro rest' fuel st hl hh _ hf
    simp only [List.nil_append, List.length_cons] at hf ⊢
    cases fuel with
    | zero => omega
    | succ f =>
      rw [splitNLoop_group_close sep n hop f rest' st hl hh]
      rw [splitNLoop_fuel_irrel sep hsep n f rest' (rest'.length + 1) _
        (by omega) (by omega)]
      simp
  | cons d grp' ih =>
    intro rest' fuel st hl hh hall hf
    cases fuel with
    | zero => simp only [List.length_append, List.length_cons] at hf; omega
    | succ f =>
      rw [List.cons_append]
      rw [splitNLoop_group_step sep n hop (hall d (List.mem_cons_self _ _)) f _ st hl hh]
      rw [ih rest' f ({ st with tmp := st.tmp ++ [d], lastChar := d })
        hl hh (fun e he => hall e (List.mem_cons_of_mem _ he))
        (by simp only [List.length_append, List.length_cons] at hf ⊢; omega)]
      simp

/-! Unfolding equations of `splitSpecAux`. -/

theorem splitSpecAux_nil (c : Char) (n : Int) (done : Nat) (tmp : List Char) :
    splitSpecAux c n done [] tmp = [tmp] := by
  rw [splitSpecAux]

theorem splitSpecAux_open_noclose {ch : Char} (hop : isOpener ch = true)
    {rest : List Char}
    (hr : rest.dropWhile (fun d => ¬ d = closerOf ch) = [])
    (c : Char) (n : Int) (done : Nat) (tmp : List Char) :
    splitSpecAux c n done (ch :: rest) tmp
      = [tmp ++ ch :: rest.takeWhile (fun d => ¬ d = closerOf ch)] := by
  rw [splitSpecAux, if_pos hop, dif_pos hr]

theorem splitSpecAux_open_close {ch : Char} (hop : isOpener ch = true)
    {rest : List Char} {p : Char} {rest' : List Char}
    (hr : rest.dropWhile (fun d => ¬ d = closerOf ch) = p :: rest')
    (c : Char) (n : Int) (done : Nat) (tmp : List Char) :
    splitSpecAux c n done (ch :: rest) tmp
      = splitSpecAux c n done rest'
          (tmp ++ ch :: (rest.takeWhile (fun d => ¬ d = closerOf ch) ++ [p])) := by
  rw [splitSpecAux, if_pos hop, dif_neg (by rw [hr]; simp)]
  rw [hr]
  simp

theorem splitSpecAux_sep_break {ch c : Char} (hch : ch = c) {n : Int}
    {done : Nat} (hop : isOpener ch = false)
    (hbr : n > 0 ∧ n = (done : Int) + 2) (rest tmp : List Char) :
    splitSpecAux c n done (ch :: rest) tmp = [tmp, rest] := by
  rw [splitSpecAux, if_neg (by rw [hop]; simp), if_pos hch, if_pos hbr]

theorem splitSpecAux_sep_cont {ch c : Char} (hch : ch = c) {n : Int}
    {done : Nat} (hop : isOpener ch = false)
    (hbr : ¬(n > 0 ∧ n = (done : Int) + 2)) (rest tmp : List Char) :
    splitSpecAux c n done (ch :: rest) tmp
      = tmp :: splitSpecAux c n (done + 1) rest [] := by
  rw [splitSpecAux, if_neg (by rw [hop]; simp), if_pos hch, if_neg hbr]

theorem splitSpecAux_default {ch c : Char} (hch : ¬ ch = c)
    (hop : isOpener ch = false) (n : Int) (done : Nat) (rest tmp : List Char) :
    splitSpecAux c n done (ch :: rest) tmp
      = splitSpecAux c n done rest (tmp ++ [ch]) := by
  rw [splitSpecAux, if_neg (by rw [hop]; simp), if_neg hch]

theorem dropWhile_cons_decomp {q : Char → Bool} {l : List Char} {x : Char}
    {t : List Char} (h : l.dropWhile q = x :: t) :
    q x = false ∧ l = l.takeWhile q ++ x :: t := by
  constructor
  · induction l with
    | nil => cases h
    | cons a l' ih =>
      rw [List.dropWhile_cons] at h
      by_cases ha : q a
      · rw [if_pos ha] at h
        exact ih h
      · rw [if_neg ha] at h
        obtain ⟨rfl, -⟩ := List.cons.inj h
        simpa using ha
  · rw [← h]
    exact (List.takeWhile_append_dropWhile _ _).symm

/-- Refinement of the tokenizer loop by the greedy reference splitter,
for one-rune separators: from any depth-0 state the loop produces
exactly the already-emitted pieces followed by the reference result of
the remaining input.  The hypothesis on `lastChar` records that either
a piece is under construction or the previous rune was a separator —
true whenever at least one rune has been processed. -/
theorem splitNLoop_eq_specAux (c : Char) (n : Int) :
    ∀ (fuel : Nat) (xs : List Char) (st : SplitState),
      xs.length < fuel →
      st.level = 0 → st.host = Char.ofNat 0 →
      (xs = [] → (st.tmp ≠ [] ∨ st.lastChar = c)) →
      splitNLoop [c] n fuel xs st
        = some (st.acc ++ splitSpecAux c n st.acc.length xs st.tmp) := by
  intro fuel
  induction fuel using Nat.strong_induction_on with
  | _ fuel IH =>
    intro xs st hfuel hl hh hinv
    cases xs with
    | nil =>
      cases fuel with
      | zero => omega
      | succ f =>
        simp only [splitNLoop, splitFinish, splitSpecAux_nil]
        rcases hinv rfl with ht | hlast
        · rw [if_pos (Or.inl ht)]
        · rw [if_pos (Or.inr (by rw [hlast]))]
    | cons ch rest =>
      cases fuel with
      | zero => simp only [List.length_cons] at hfuel; omega
      | succ f =>
        simp only [List.length_cons] at hfuel
        by_cases hop : isOpener ch = true
        · -- an opener: enter the group
          have hb1 : (({ st with lastChar := ch } : SplitState).level = (0 : Int) ∧
              (ch ∈ quoteChars ∨ ch ∈ bracketChars)) := by
            refine ⟨?_, ?_⟩
            · show st.level = 0
              exact hl
            · simpa [isOpener] using hop
          simp only [splitNLoop]
          rw [if_pos hb1]
          have hl1 : ({ st with
              host := ch, level := st.level + 1,
              tmp := st.tmp ++ [ch], lastChar := ch } : SplitState).level = 1 := by
            show st.level + 1 = 1
            rw [hl]
            decide
          have hh1 : ({ st with
              host := ch, level := st.level + 1,
              tmp := st.tmp ++ [ch], lastChar := ch } : SplitState).host = ch := rfl
          cases hdrop : rest.dropWhile (fun d => ¬ d = closerOf ch) with
          | nil =>
            have hall : ∀ d ∈ rest, d ≠ closerOf ch := by
              intro d hd
              have := List.dropWhile_eq_nil_iff.mp hdrop d hd
              simpa using this
            rw [splitNLoop_group_noclose [c] n hop rest f _ hl1 hh1
              (by simp) hall (by omega)]
            rw [splitSpecAux_open_noclose hop hdrop]
            have htake : rest.takeWhile (fun d => ¬ d = closerOf ch) = rest :=
              List.takeWhile_eq_self_iff.mpr (by
                intro x hx
                simpa using hall x hx)
            rw [htake]
            simp
          | cons p rest' =>
            obtain ⟨hpq, hdec⟩ := dropWhile_cons_decomp hdrop
            have hp : p = closerOf ch := by simpa using hpq
            rw [hp] at hdrop hdec
            have hall : ∀ d ∈ rest.takeWhile (fun d => ¬ d = closerOf ch),
                d ≠ closerOf ch := by
              intro d hd
              simpa using List.mem_takeWhile_imp hd
            have hlen_decomp : rest.length
                = (rest.takeWhile (fun d => ¬ d = closerOf ch)).length
                  + rest'.length + 1 := by
              conv_lhs => rw [hdec]
              simp only [List.length_append, List.length_cons]
              omega
            conv_lhs => rw [hdec]
            rw [splitNLoop_group_skip [c] (by simp) n hop _ rest' f _ hl1 hh1 hall
              (by simp only [List.length_append, List.length_cons]; omega)]
            have hIH := IH (rest'.length + 1) (by omega) rest'
              (⟨st.acc, st.tmp ++ [ch]
                  ++ rest.takeWhile (fun d => ¬ d = closerOf ch) ++ [closerOf ch],
                0, Char.ofNat 0, closerOf ch⟩ : SplitState)
              (by omega) rfl rfl (fun _ => Or.inl (by simp))
            rw [hIH]
            rw [splitSpecAux_open_close hop hdrop]
            simp
        · -- not an opener
          have hopf : isOpener ch = false := by
            revert hop
            cases isOpener ch <;> simp
          have hnq : ch ∉ quoteChars :=
            fun hq => hop (by simp [isOpener, hq])
          have hnb : ch ∉ bracketChars :=
            fun hb => hop (by simp [isOpener, hb])
          have hb1 : ¬(({ st with lastChar := ch } : SplitState).level = (0 : Int) ∧
              (ch ∈ quoteChars ∨ ch ∈ bracketChars)) := by
            rintro ⟨-, hq | hb⟩
            · exact hnq hq
            · exact hnb hb
          have hb2 : ¬(({ st with lastChar := ch } : SplitState).host = ch ∧
              ch ∈ quoteChars) := by
            rintro ⟨-, hq⟩
            exact hnq hq
          have hb3 : ¬(({ st with lastChar := ch } : SplitState).host = flipsMap ch ∧
              ({ st with lastChar := ch } : SplitState).host ∈ bracketChars) := by
            rintro ⟨-, hbr⟩
            have hbr' : st.host ∈ bracketChars := hbr
            rw [hh] at hbr'
            exact nul_not_bracket hbr'
          simp only [splitNLoop]
          rw [if_neg hb1, if_neg hb2, if_neg hb3]
          by_cases hch : ch = c
          · have hb4 : (({ st with lastChar := ch } : SplitState).level = (0 : Int) ∧
                List.isPrefixOf [c] (ch :: rest)) := by
              refine ⟨hl, ?_⟩
              rw [hch]
              exact List.isPrefixOf_iff_prefix.mpr ⟨rest, rfl⟩
            rw [if_pos hb4]
            by_cases hbr : n > 0 ∧
                n = ((({ st with lastChar := ch } : SplitState).acc
                  ++ [({ st with lastChar := ch } : SplitState).tmp]).length : Int) + 1
            · rw [if_pos hbr]
              have hbr' : n > 0 ∧ n = (st.acc.length : Int) + 2 := by
                obtain ⟨hbr1, hbr2⟩ := hbr
                refine ⟨hbr1, ?_⟩
                rw [hbr2]
                simp only [List.length_append, List.length_singleton]
                push_cast
                ring
              rw [splitSpecAux_sep_break hch hopf hbr']
              simp only [splitFinish]
              rw [if_pos (Or.inr (by rw [hch]))]
              simp
            · rw [if_neg hbr]
              have hbr' : ¬(n > 0 ∧ n = ((st.acc.length : Nat) : Int) + 2) := by
                intro hc2
                refine hbr ⟨hc2.1, ?_⟩
                rw [hc2.2]
                simp only [List.length_append, List.length_singleton]
                push_cast
                ring
              rw [splitSpecAux_sep_cont hch hopf hbr']
              have hIH := IH f (by omega) rest
                (⟨st.acc ++ [st.tmp], [], st.level, st.host, ch⟩ : SplitState)
                (by omega) hl hh (fun _ => Or.inr (show ch = c from hch))
              have hdrop1 : (ch :: rest).drop ([c] : List Char).length = rest := by
                simp
              rw [hdrop1, hIH]
              simp
          · have hb4 : ¬(({ st with lastChar := ch } : SplitState).level = (0 : Int) ∧
                List.isPrefixOf [c] (ch :: rest)) := by
              rintro ⟨-, hpre⟩
              obtain ⟨t, ht⟩ := List.isPrefixOf_iff_prefix.mp hpre
              simp only [List.cons_append, List.nil_append] at ht
              obtain ⟨rfl, -⟩ := List.cons.inj ht
              exact hch rfl
            rw [if_neg hb4]
            have hIH := IH f (by omega) rest
              (⟨st.acc, st.tmp ++ [ch], st.level, st.host, ch⟩ : SplitState)
              (by omega) hl hh (fun _ => Or.inl (by simp))
            rw [hIH]
            rw [splitSpecAux_default hch hopf]

theorem intercalate_singleton (sep x : List Char) :
    List.intercalate sep [x] = x := by
  rw [show [x] = ([] : List (List Char)) ++ [x] from rfl, intercalate_eq_glueAcc]
  rfl

theorem splitSpecAux_ne_nil (c : Char) (n : Int) :
    ∀ (len : Nat) (xs : List Char), xs.length = len →
      ∀ (done : Nat) (tmp : List Char),
      splitSpecAux c n done xs tmp ≠ [] := by
  intro len
  induction len using Nat.strong_induction_on with
  | _ len IH =>
    intro xs hlen done tmp
    cases xs with
    | nil => rw [splitSpecAux_nil]; simp
    | cons ch rest =>
      simp only [List.length_cons] at hlen
      by_cases hop : isOpener ch = true
      · cases hdrop : rest.dropWhile (fun d => ¬ d = closerOf ch) with
        | nil => rw [splitSpecAux_open_noclose hop hdrop]; simp
        | cons p rest' =>
          rw [splitSpecAux_open_close hop hdrop]
          have h2 : (rest.dropWhile (fun d => ¬ d = closerOf ch)).length
              ≤ rest.length := (List.dropWhile_sublist _).length_le
          rw [hdrop] at h2
          simp only [List.length_cons] at h2
          exact IH rest'.length (by omega) rest' rfl done _
      · have hopf : isOpener ch = false := by
          revert hop
          cases isOpener ch <;> simp
        by_cases hch : ch = c
        · by_cases hbr : n > 0 ∧ n = (done : Int) + 2
          · rw [splitSpecAux_sep_break hch hopf hbr]; simp
          · rw [splitSpecAux_sep_cont hch hopf hbr]; simp
        · rw [splitSpecAux_default hch hopf]
          exact IH rest.length (by omega) rest rfl done _

/-- The reference splitter loses nothing: its pieces joined with the
separator give back the unconsumed input, for every limit. -/
theorem splitSpecAux_join (c : Char) (n : Int) :
    ∀ (len : Nat) (xs : List Char), xs.length = len →
      ∀ (done : Nat) (tmp : List Char),
      List.intercalate [c] (splitSpecAux c n done xs tmp) = tmp ++ xs := by
  intro len
  induction len using Nat.strong_induction_on with
  | _ len IH =>
    intro xs hlen done tmp
    cases xs with
    | nil =>
      rw [splitSpecAux_nil, intercalate_singleton]
      simp
    | cons ch rest =>
      simp only [List.length_cons] at hlen
      by_cases hop : isOpener ch = true
      · cases hdrop : rest.dropWhile (fun d => ¬ d = closerOf ch) with
        | nil =>
          rw [splitSpecAux_open_noclose hop hdrop, intercalate_singleton]
          have htake : rest.takeWhile (fun d => ¬ d = closerOf ch) = rest :=
            List.takeWhile_eq_self_iff.mpr (List.dropWhile_eq_nil_iff.mp hdrop)
          rw [htake]
        | cons p rest' =>
          rw [splitSpecAux_open_close hop hdrop]
          obtain ⟨-, hdec⟩ := dropWhile_cons_decomp hdrop
          have h2 : (rest.dropWhile (fun d => ¬ d = closerOf ch)).length
              ≤ rest.length := (List.dropWhile_sublist _).length_le
          rw [hdrop] at h2
          simp only [List.length_cons] at h2
          rw [IH rest'.length (by omega) rest' rfl done _]
          conv_rhs => rw [hdec]
          simp
      · have hopf : isOpener ch = false := by
          revert hop
          cases isOpener ch <;> simp
        by_cases hch : ch = c
        · by_cases hbr : n > 0 ∧ n = (done : Int) + 2
          · rw [splitSpecAux_sep_break hch hopf hbr]
            rw [intercalate_cons_of_ne_nil (by simp), intercalate_singleton]
            rw [hch]
            simp
          · rw [splitSpecAux_sep_cont hch hopf hbr]
            rw [intercalate_cons_of_ne_nil
              (splitSpecAux_ne_nil c n rest.length rest rfl (done + 1) [])]
            rw [IH rest.length (by omega) rest rfl (done + 1) []]
            rw [hch]
            simp
        · rw [splitSpecAux_default hch hopf]
          rw [IH rest.length (by omega) rest rfl done _]
          simp

/-- C7, counterexample.  The claim fails on the code in both
halves.  First, with nested brackets the single-group tracker closes
the outer group at the first `)`, so the separator at position 6 of
`((a,b),c)` — inside the matched outer pair `(0,8)` — is split.
Second, with the two-rune separator `ab`, the input `xab` (which holds
no quote or bracket group at all, so no group is ever unmatched)
splits to `["x"]`, and joining gives `"x"`, not `"xab"`: the trailing
separator is lost because the final-append test compares the separator
with the single last rune. -/
theorem C7_ce :
    splitN "((a,b),c)" "," (-1) = some ["((a,b)", "c)"] ∧
    (splitN "xab" "ab" (-1) = some ["x"] ∧ joinSep "ab" ["x"] ≠ "xab") := by
  refine ⟨rfl, rfl, ?_⟩
  intro h
  have : ("x" : String) = "xab" := by
    rw [← h]
    rfl
  simp at this

/-- C7, amended.  For one-rune separators the tokenizer is exactly
the greedy single-group splitter `splitSpec`: scanning at depth 0, the
first quote/bracket opener starts a group ending at the first matching
partner, and separators inside such tracked groups never split (nested
or overlapping groups are not tracked).  Moreover, for every non-zero
limit, joining the returned pieces with the separator reproduces the
input exactly — even when groups are unmatched. -/
theorem C7_single_sep_refinement (str : String) (c : Char) (n : Int)
    (hn : n ≠ 0) :
    ∃ r, splitN str (String.mk [c]) n = some r ∧
      joinSep (String.mk [c]) r = str ∧
      r = (splitSpec c n str.data).map String.mk := by
  by_cases h1 : n = 1
  · subst h1
    refine ⟨[str], rfl, ?_, ?_⟩
    · unfold joinSep
      rw [show [str].map String.data = [str.data] from rfl, intercalate_singleton]
    · unfold splitSpec
      rw [if_neg (by decide), if_pos rfl]
      simp [string_mk_data]
  · by_cases hnil : str.data = []
    · cases str with
      | mk d =>
        have hd : d = [] := hnil
        subst hd
        by_cases hc : c = Char.ofNat 0
        · subst hc
          refine ⟨[String.mk []], ?_, rfl, ?_⟩
          · unfold splitN
            rw [if_neg hn, if_neg h1]
            rfl
          · unfold splitSpec
            rw [if_neg hn, if_neg h1, if_pos rfl, if_pos rfl]
            rfl
        · refine ⟨[], ?_, rfl, ?_⟩
          · unfold splitN
            rw [if_neg hn, if_neg h1]
            show (some (splitFinish (String.mk [c]).data splitInit)).map
              (List.map String.mk) = some []
            unfold splitFinish
            rw [if_neg ?_]
            · rfl
            · intro hcond
              rcases hcond with h | h
              · exact h rfl
              · exact hc (List.cons_eq_cons.mp h).1
          · unfold splitSpec
            rw [if_neg hn, if_neg h1, if_pos rfl, if_neg hc]
            rfl
    · unfold splitN
      rw [if_neg hn, if_neg h1]
      have hloop := splitNLoop_eq_specAux c n
        (str.data.length + n.toNat + 2) str.data splitInit
        (by omega) rfl rfl (fun hcontra => absurd hcontra hnil)
      rw [show (String.mk [c]).data = [c] from rfl, hloop]
      refine ⟨_, rfl, ?_, ?_⟩
      · rw [show splitInit.acc = [] from rfl, show splitInit.tmp = [] from rfl,
          List.nil_append]
        rw [joinSep_map_mk]
        rw [show (String.mk [c]).data = [c] from rfl]
        rw [splitSpecAux_join c n str.data.length str.data rfl _ []]
        rw [List.nil_append]
      · rw [show splitInit.acc = [] from rfl, show splitInit.tmp = [] from rfl,
          List.nil_append]
        unfold splitSpec
        rw [if_neg hn, if_neg h1, if_neg hnil]
        rfl

theorem C7_single_sep_refinement_witness :
    ∃ r, splitN "a,(b,c),d" (String.mk [',']) (-1) = some r ∧
      joinSep (String.mk [',']) r = "a,(b,c),d" ∧
      r = (splitSpec ',' (-1) "a,(b,c),d".data).map String.mk :=
  C7_single_sep_refinement "a,(b,c),d" ',' (-1) (by decide)

end GoEnv
